import Mathlib

/-!
Verification of the recaller retrieval backend against its specification.

The Go sources are shallowly embedded: Go byte strings become `List Nat`
(each entry a byte value), machine integers become `Nat`/`Int` with explicit
wrap-around where the Go code can overflow, and functions touching the
filesystem, the clock or the network take those effects as explicit
parameters.  Definition names follow the Go source names.

The file is organised in two parts: all definitions first, then all theorems.
-/

set_option maxRecDepth 100000

/-! # Part 1: Definitions -/

/-- A Go string / byte slice: a list of byte values. -/
abbrev GoStr := List Nat

/-! ## Little-endian byte codecs (Go `encoding/binary`, little endian) -/

/-- Encode a natural number as `w` little-endian bytes (truncating above `256^w`),
as `binary.Write` does for unsigned fields. -/
def encLE : Nat → Nat → List Nat
  | 0, _ => []
  | w + 1, n => n % 256 :: encLE w (n / 256)

/-- Decode little-endian bytes into a natural number. -/
def decLE : List Nat → Nat
  | [] => 0
  | b :: bs => b % 256 + 256 * decLE bs

/-- Read `w` bytes from the front of a stream as a little-endian number. -/
def readLE (w : Nat) (bs : List Nat) : Option (Nat × List Nat) :=
  if w ≤ bs.length then some (decLE (bs.take w), bs.drop w) else none

/-- Encode a signed integer as `w` little-endian two's-complement bytes,
as `binary.Write` does for `int32`/`int64` fields. -/
def encI (w : Nat) (t : Int) : List Nat :=
  encLE w (t % (2 ^ (8 * w))).toNat

/-- Interpret a natural number below `2^(8w)` as a two's-complement signed value. -/
def twosComp (w : Nat) (n : Nat) : Int :=
  if n < 2 ^ (8 * w - 1) then (n : Int) else (n : Int) - 2 ^ (8 * w)

/-- Read `w` bytes as a little-endian two's-complement signed integer. -/
def readI (w : Nat) (bs : List Nat) : Option (Int × List Nat) :=
  match readLE w bs with
  | some (n, rest) => some (twosComp w n, rest)
  | none => none

/-- Wrap an unbounded integer into the `int32` range, modelling Go's
wrapping `int32` arithmetic. -/
def wrap32 (x : Int) : Int := (x + 2 ^ 31) % 2 ^ 32 - 2 ^ 31

/-! ## Overstrike stripping (`removeOverstrike`, command_help.go)

The Go function works over `[]rune`, so the embedding works over `List Char`.
The backspace rune `\x08` is `Char.ofNat 8`.
-/

/-- The backspace character. -/
def bspace : Char := Char.ofNat 8

/-- `removeOverstrike` from command_help.go, translated rune-by-rune.  The Go
loop collapses `X BS Y` to `Y` whenever index `i+2` is in range
(`i+2 < len(runes)`), advancing the index by 3; otherwise it copies the
current rune and advances by 1. -/
def removeOverstrike : List Char → List Char
  | c0 :: c1 :: c2 :: rest =>
      if c1 = bspace then c2 :: removeOverstrike rest
      else c0 :: removeOverstrike (c1 :: c2 :: rest)
  | [c0, c1] => [c0, c1]
  | [c0] => [c0]
  | [] => []

/-! ## AVL tree (avl_tree.go)

`AVLNode` is the linked node structure; a `nil` pointer becomes the `nil`
constructor.  The Go code mutates `Height` in place via `updateHeight`; the
embedding rebuilds nodes with the recomputed height (`mkNode`). -/

/-- Command metadata stored at each AVL node (avl_tree.go). -/
structure CommandMetadata where
  Command : GoStr
  Timestamp : Option Int
  Frequency : Nat
deriving DecidableEq, Repr

/-- An AVL tree node; `nil` models the Go nil pointer. -/
inductive AVLNode (K V : Type) where
  | nil
  | node (Key : K) (Value : V) (Height : Nat) (Left : AVLNode K V) (Right : AVLNode K V)
deriving DecidableEq

/-- `getHeight`: the stored height, 0 for nil. -/
def getHeight {K V : Type} : AVLNode K V → Nat
  | .nil => 0
  | .node _ _ h _ _ => h

/-- Build a node with its height recomputed; this is Go's
`updateHeight(node)` applied to a freshly linked node. -/
def mkNode {K V : Type} (k : K) (v : V) (l r : AVLNode K V) : AVLNode K V :=
  .node k v (max (getHeight l) (getHeight r) + 1) l r

/-- `getBalanceFactor`: left height minus right height (Go `int`). -/
def getBalanceFactor {K V : Type} : AVLNode K V → Int
  | .nil => 0
  | .node _ _ _ l r => (getHeight l : Int) - (getHeight r : Int)

/-- `rotateLeft`: returns the input unchanged when the node or its right
child is nil, exactly as the Go guard does. -/
def rotateLeft {K V : Type} : AVLNode K V → AVLNode K V
  | .node k v _ l (.node pk pv _ pl pr) => mkNode pk pv (mkNode k v l pl) pr
  | t => t

/-- `rotateRight`: mirror image of `rotateLeft`. -/
def rotateRight {K V : Type} : AVLNode K V → AVLNode K V
  | .node k v _ (.node pk pv _ pl pr) r => mkNode pk pv pl (mkNode k v pr r)
  | t => t

/-- The balance-and-rotate tail of Go's `insertRecursive`, applied after the
recursive insert and `updateHeight`.  When the Go code would dereference a nil
child (impossible on height-consistent trees) the embedding returns the node
unchanged. -/
def rebalanceInsert {K V : Type} [LinearOrder K] (key : K) (n : AVLNode K V) : AVLNode K V :=
  match n with
  | .nil => .nil
  | .node nk nv h l r =>
      let bf := getBalanceFactor (.node nk nv h l r)
      if bf > 1 then
        match l with
        | .node lk _ _ _ _ =>
            if key < lk then rotateRight (.node nk nv h l r)
            else rotateRight (mkNode nk nv (rotateLeft l) r)
        | .nil => .node nk nv h l r
      else if bf < -1 then
        match r with
        | .node rk _ _ _ _ =>
            if rk < key then rotateLeft (.node nk nv h l r)
            else rotateLeft (mkNode nk nv l (rotateRight r))
        | .nil => .node nk nv h l r
      else .node nk nv h l r

/-- `insertRecursive` from avl_tree.go / fs_indexer.go: recursive descent by
key comparison — with an *empty* duplicate-key branch (the Go code only has
the comment `// Handle duplicate keys (e.g., update value)` there) — followed
by `updateHeight` and the balance checks. -/
def insertRecursive {K V : Type} [LinearOrder K] (t : AVLNode K V) (key : K) (value : V) :
    AVLNode K V :=
  match t with
  | .nil => .node key value 1 .nil .nil
  | .node nk nv _ l r =>
      let l' := if key < nk then insertRecursive l key value else l
      let r' := if nk < key then insertRecursive r key value else r
      rebalanceInsert key (mkNode nk nv l' r')

/-- `searchNode` from avl_tree.go. -/
def searchNode {K V : Type} [LinearOrder K] : AVLNode K V → K → Option V
  | .nil, _ => none
  | .node nk nv _ l r, key =>
      if key < nk then searchNode l key
      else if nk < key then searchNode r key
      else some nv

/-- In-order key/value listing of a tree (specification-side observer). -/
def toList {K V : Type} : AVLNode K V → List (K × V)
  | .nil => []
  | .node k v _ l r => toList l ++ (k, v) :: toList r

/-- Sorted-position insertion into an association list that *keeps the old
value* on an existing key, mirroring the empty duplicate branch of
`insertRecursive` (specification-side observer). -/
def insSorted {K V : Type} [LinearOrder K] (key : K) (value : V) :
    List (K × V) → List (K × V)
  | [] => [(key, value)]
  | (k, v) :: rest =>
      if key < k then (key, value) :: (k, v) :: rest
      else if k < key then (k, v) :: insSorted key value rest
      else (k, v) :: rest

/-- Lower-bound side condition for `Bounded`. -/
def OptLB {K : Type} [LT K] : Option K → K → Prop
  | none, _ => True
  | some a, k => a < k

/-- Upper-bound side condition for `Bounded`. -/
def OptUB {K : Type} [LT K] : K → Option K → Prop
  | _, none => True
  | k, some b => k < b

/-- Binary-search-tree invariant with optional bounds. -/
inductive Bounded {K V : Type} [LT K] : Option K → Option K → AVLNode K V → Prop where
  | nil : ∀ {lo hi}, Bounded lo hi .nil
  | node : ∀ {lo hi : Option K} {k : K} {v : V} {h : Nat} {l r : AVLNode K V},
      OptLB lo k → OptUB k hi → Bounded lo (some k) l → Bounded (some k) hi r →
      Bounded lo hi (.node k v h l r)


/-! ## History ingestion (`readHistoryAndPopulateTree`, history_reader.go)

The shell-history adapters are external collaborators; ingestion consumes a
sequence of `(command, optional timestamp)` records. -/

/-- One shell-history record handed to ingestion. -/
structure HistoryEntry where
  Command : GoStr
  Timestamp : Option Int
deriving DecidableEq, Repr

/-- The timestamp update of the ingestion loop: `if lastTimestamp[cmd] == nil
|| hist.Timestamp.After(*lastTimestamp[cmd]) { lastTimestamp[cmd] = hist.Timestamp }`. -/
def omaxStep (o : Option Int) (t : Int) : Option Int :=
  match o with
  | none => some t
  | some old => if old < t then some t else some old

/-- One iteration of the reverse scan in `readHistoryAndPopulateTree`: skip
records with nil timestamp or empty command, bump the frequency map and keep
the most recent timestamp.  The Go maps are modelled as functions together
with the list of keys in first-insertion order. -/
def ingestStep (acc : (GoStr → Nat) × (GoStr → Option Int) × List GoStr)
    (hist : HistoryEntry) : (GoStr → Nat) × (GoStr → Option Int) × List GoStr :=
  match hist.Timestamp with
  | none => acc
  | some ts =>
      if hist.Command = [] then acc
      else
        (fun c => if c = hist.Command then acc.1 c + 1 else acc.1 c,
         fun c => if c = hist.Command then omaxStep (acc.2.1 hist.Command) ts else acc.2.1 c,
         if hist.Command ∈ acc.2.2 then acc.2.2 else acc.2.2 ++ [hist.Command])

/-- The aggregation phase of `readHistoryAndPopulateTree`: the Go loop walks
the history from the last index down to 0, which is a left fold over the
reversed list. -/
def ingestHistory (history : List HistoryEntry) :
    (GoStr → Nat) × (GoStr → Option Int) × List GoStr :=
  history.reverse.foldl ingestStep (fun _ => 0, fun _ => none, [])

/-- `readHistoryAndPopulateTree`: aggregate, then insert one metadata record
per distinct command.  Go iterates its map in unspecified order; the embedding
uses first-observation order (the proved properties are order independent). -/
def readHistoryAndPopulateTree (history : List HistoryEntry)
    (tree : AVLNode GoStr CommandMetadata) : AVLNode GoStr CommandMetadata :=
  let (freq, last, keys) := ingestHistory history
  keys.foldl (fun t c => insertRecursive t c ⟨c, last c, freq c⟩) tree

/-- Specification-side observer: a history record counts for command `c` when
its command text equals `c` and its timestamp is present. -/
def relevantFor (c : GoStr) (h : HistoryEntry) : Bool :=
  h.Command == c && h.Timestamp.isSome

/-- Specification-side observer: the non-ignored occurrences of command `c`. -/
def occursOf (history : List HistoryEntry) (c : GoStr) : List HistoryEntry :=
  history.filter (relevantFor c)

/-- Specification-side observer: the timestamps of the non-ignored
occurrences of command `c`. -/
def tsOf (history : List HistoryEntry) (c : GoStr) : List Int :=
  (occursOf history c).filterMap HistoryEntry.Timestamp

/-- Convert an optional value into the list of its contents. -/
def optToList : Option Int → List Int
  | none => []
  | some a => [a]


/-! ## Count-Min Sketch (fs_indexer.go)

Fixed geometry 4 x 2048, `int32` cells.  The 2-D Go array is flattened
row-major into a list of 4*2048 integers; cell updates wrap like `int32`. -/

/-- 32-bit FNV-1a over a byte sequence (Go `hash/fnv`, `New32a`). -/
def fnv32a (bytes : GoStr) : Nat :=
  bytes.foldl (fun h b => ((h ^^^ (b % 256)) * 16777619) % 2 ^ 32) 2166136261

/-- The Count-Min sketch: 4 x 2048 `int32` counters, row-major. -/
structure CountMinSketch where
  table : List Int
deriving DecidableEq, Repr

/-- `NewCountMinSketch`: the zero table. -/
def NewCountMinSketch : CountMinSketch := ⟨List.replicate (4 * 2048) 0⟩

/-- `cms.hash(item, row)`: FNV-1a of the item bytes followed by the row byte,
reduced mod the width. -/
def CountMinSketch.hash (item : GoStr) (row : Nat) : Nat :=
  fnv32a (item ++ [row % 256]) % 2048

/-- `cms.Add(item, count)`: bump one cell per row, with `int32` wrap-around. -/
def CountMinSketch.Add (cms : CountMinSketch) (item : GoStr) (count : Int) : CountMinSketch :=
  ⟨(List.range 4).foldl (fun tb i =>
      let pos := i * 2048 + CountMinSketch.hash item i
      tb.set pos (wrap32 (tb.getD pos 0 + count))) cms.table⟩

/-- `cms.Estimate(item)`: the minimum of the four row cells (the Go loop
starts from row 0 and folds rows 1..3). -/
def CountMinSketch.Estimate (cms : CountMinSketch) (item : GoStr) : Int :=
  let m0 := cms.table.getD (0 * 2048 + CountMinSketch.hash item 0) 0
  [1, 2, 3].foldl (fun mn i =>
      let v := cms.table.getD (i * 2048 + CountMinSketch.hash item i) 0
      if v < mn then v else mn) m0

/-- `cms.WriteTo`: the contiguous little-endian dump of the counter array. -/
def CountMinSketch.WriteTo (cms : CountMinSketch) : List Nat :=
  (cms.table.map (encI 4)).flatten

/-- Read `n` consecutive `int32` values. -/
def readInts : Nat → List Nat → Option (List Int × List Nat)
  | 0, bs => some ([], bs)
  | n + 1, bs =>
      match readI 4 bs with
      | some (v, rest) =>
          match readInts n rest with
          | some (vs, rest2) => some (v :: vs, rest2)
          | none => none
      | none => none

/-! ## Bloom filter

Modelled from the spec: the Bloom filter implementation is the external
willf/bloom library, absent from this repository.  The spec describes a bit
array of size `m` probed by `k` salted hash functions, with no false
negatives, and a binary form that "must round-trip through its own
writer/reader".  The family of salted hashes is a parameter `bhash`
(salt index, then item); every operation takes it explicitly. -/

/-- Bloom filter state: size, hash count, bit array. -/
structure BloomFilter where
  m : Nat
  k : Nat
  bits : List Bool
deriving DecidableEq, Repr

/-- `bloom.New(m, k)`: all bits clear. -/
def bloomNew (m k : Nat) : BloomFilter := ⟨m, k, List.replicate m false⟩

/-- `bf.TestString(s)`: all `k` probed bits set. -/
def BloomFilter.TestString (bhash : Nat → GoStr → Nat) (bf : BloomFilter) (s : GoStr) : Bool :=
  (List.range bf.k).all fun i => bf.bits.getD (bhash i s % bf.m) false

/-- `bf.AddString(s)`: set the `k` probed bits. -/
def BloomFilter.AddString (bhash : Nat → GoStr → Nat) (bf : BloomFilter) (s : GoStr) :
    BloomFilter :=
  { bf with bits :=
      (List.range bf.k).foldl (fun bits i => bits.set (bhash i s % bf.m) true) bf.bits }

/-- Modelled from the spec: a self-delimiting serialization owned by the
bloom implementation (`m`, `k`, then one byte per bit). -/
def BloomFilter.WriteTo (bf : BloomFilter) : List Nat :=
  encLE 8 bf.m ++ encLE 8 bf.k ++ bf.bits.map (fun b => if b then 1 else 0)

/-- Modelled from the spec: the matching reader. -/
def BloomFilter.ReadFrom (bs : List Nat) : Option (BloomFilter × List Nat) :=
  match readLE 8 bs with
  | none => none
  | some (m, r1) =>
      match readLE 8 r1 with
      | none => none
      | some (k, r2) =>
          if m ≤ r2.length then
            some (⟨m, k, (r2.take m).map (fun b => b != 0)⟩, r2.drop m)
          else none

/-! ## Filesystem indexer state (fs_indexer.go) -/

/-- The filesystem section of the configuration (config.go). -/
structure FilesystemConfig where
  IgnorePatterns : List GoStr
  MaxIndexedFiles : Nat
  BloomFilterSize : Nat
  BloomFilterHashes : Nat
deriving DecidableEq, Repr

/-- Fixed-size binary path record (525 bytes serialized). -/
structure PathRecord where
  Path : List Nat
  Timestamp : Int
  AccessCount : Int
  Flags : Nat
deriving DecidableEq, Repr

/-- The indexer state.  The Go `map[string]int` becomes a function to
`Option Nat`. -/
structure FilesystemIndexer where
  bloomFilter : BloomFilter
  countMinSketch : CountMinSketch
  pathRecords : List PathRecord
  pathIndex : GoStr → Option Nat
  rootPaths : List GoStr
  config : FilesystemConfig
  isDirty : Bool

/-- `NewFilesystemIndexer(config)`. -/
def NewFilesystemIndexer (config : FilesystemConfig) : FilesystemIndexer :=
  { bloomFilter := bloomNew config.BloomFilterSize config.BloomFilterHashes
    countMinSketch := NewCountMinSketch
    pathRecords := []
    pathIndex := fun _ => none
    rootPaths := []
    config := config
    isDirty := false }

/-- `pathToBytes`: truncate to 511 bytes (leaving room for the terminator)
and zero-pad to 512. -/
def pathToBytes (path : GoStr) : List Nat :=
  let p := if path.length > 512 - 1 then path.take (512 - 1) else path
  p ++ List.replicate (512 - p.length) 0

/-- `bytesToPath`: scan for the first zero byte; when the scan leaves `end`
at 0 — both for an all-nonzero array and for a leading zero byte — the Go
code takes the whole array. -/
def bytesToPath (bytes : List Nat) : GoStr :=
  let e := match bytes.findIdx? (fun b => b == 0) with
    | some i => i
    | none => 0
  let e := if e = 0 then bytes.length else e
  bytes.take e

/-- Result of `os.Lstat` as far as the indexer consumes it. -/
structure LstatInfo where
  isDir : Bool
  isSymlink : Bool
deriving DecidableEq, Repr

/-- The ambient filesystem and clock, passed explicitly. `lstat` is
`os.Lstat` (`none` = error), `notExist` is `os.Stat` + `os.IsNotExist`,
`absPath` is `filepath.Abs`, `now` is `time.Now().Unix()`. -/
structure FsEnv where
  lstat : GoStr → Option LstatInfo
  notExist : GoStr → Bool
  absPath : GoStr → GoStr
  now : Int

/-- `filepath.Base` for unix paths: strip trailing separators, then take the
suffix after the last separator; empty input gives ".", all-separator input
gives "/". -/
def filepathBase (path : GoStr) : GoStr :=
  if path = [] then [46]
  else
    let p := (path.reverse.dropWhile (fun b => b == 47)).reverse
    if p = [] then [47]
    else (p.reverse.takeWhile (fun b => b != 47)).reverse

/-- The flag byte computed by `AddPath` from `os.Lstat` (bit 0 directory,
bit 1 hidden = basename begins with ".", bit 2 symlink); a failed `Lstat`
leaves all flags clear. -/
def computeFlags (env : FsEnv) (path : GoStr) : Nat :=
  match env.lstat path with
  | none => 0
  | some info =>
      (if info.isDir then 1 else 0) |||
      (if ([46] : GoStr).isPrefixOf (filepathBase path) then 2 else 0) |||
      (if info.isSymlink then 4 else 0)

/-- `AddPath(path, timestamp) -> (indexer, was_known, count)`:
bloom test, then unconditional bloom add + sketch bump + dirty; update an
existing record in place, or append a new record unless the cap is hit. -/
def AddPath (bhash : Nat → GoStr → Nat) (env : FsEnv) (fi : FilesystemIndexer)
    (path : GoStr) (timestamp : Int) : FilesystemIndexer × Bool × Int :=
  let existed := fi.bloomFilter.TestString bhash path
  let fi1 := { fi with
    bloomFilter := fi.bloomFilter.AddString bhash path
    countMinSketch := fi.countMinSketch.Add path 1
    isDirty := true }
  match (if existed then fi1.pathIndex path else none) with
  | some idx =>
      let r := fi1.pathRecords.getD idx ⟨List.replicate 512 0, 0, 0, 0⟩
      let r' := { r with Timestamp := timestamp, AccessCount := wrap32 (r.AccessCount + 1) }
      ({ fi1 with pathRecords := fi1.pathRecords.set idx r' }, true, r'.AccessCount)
  | none =>
      if fi1.pathRecords.length ≥ fi1.config.MaxIndexedFiles then
        (fi1, existed, fi1.countMinSketch.Estimate path)
      else
        let record : PathRecord :=
          { Path := pathToBytes path
            Timestamp := timestamp
            AccessCount := fi1.countMinSketch.Estimate path
            Flags := computeFlags env path }
        ({ fi1 with
            pathIndex := fun p => if p = path then some fi1.pathRecords.length else fi1.pathIndex p
            pathRecords := fi1.pathRecords ++ [record] },
         existed, record.AccessCount)

/-- `TestMembership(path)`: bloom query only. -/
def TestMembership (bhash : Nat → GoStr → Nat) (fi : FilesystemIndexer) (path : GoStr) : Bool :=
  fi.bloomFilter.TestString bhash path

/-- `GetFrequency(path)`: sketch estimate. -/
def GetFrequency (fi : FilesystemIndexer) (path : GoStr) : Int :=
  fi.countMinSketch.Estimate path

/-! ## Cleanup (fs_indexer.go `CleanupIndex`) -/

/-- Cleanup options (progress display omitted — it does not affect state). -/
structure CleanupOptions where
  Path : GoStr
  RemoveStale : Bool
  OlderThanDays : Int
deriving DecidableEq, Repr

/-- Cleanup statistics.  Go reports `FreedKB` as a float of
`removed * sizeof(PathRecord) / 1024`; the embedding keeps the byte count. -/
structure CleanupStats where
  TotalEntries : Nat
  RemovedEntries : Nat
  StaleFiles : Nat
  OldFiles : Nat
  FreedBytes : Nat
deriving DecidableEq, Repr

/-- Loop accumulator of `CleanupIndex`. -/
structure CleanupAcc where
  stats : CleanupStats
  validRecords : List PathRecord
  validPaths : List GoStr
  removedPaths : List GoStr

/-- One iteration of the cleanup scan: the three removal rules evaluated in
order (path prefix filter, stale check, age threshold); a single match
removes the record. -/
def cleanupStep (env : FsEnv) (options : CleanupOptions) (oldThreshold : Int)
    (acc : CleanupAcc) (record : PathRecord) : CleanupAcc :=
  let path := bytesToPath record.Path
  let s0 := acc.stats
  let p1 :=
    if options.Path ≠ [] ∧ options.Path.isPrefixOf path then
      (true, { s0 with RemovedEntries := s0.RemovedEntries + 1 })
    else (false, s0)
  let p2 :=
    if p1.1 = false ∧ options.RemoveStale ∧ env.notExist path then
      (true, { p1.2 with StaleFiles := p1.2.StaleFiles + 1
                         RemovedEntries := p1.2.RemovedEntries + 1 })
    else p1
  let p3 :=
    if p2.1 = false ∧ options.OlderThanDays > 0 ∧ record.Timestamp < oldThreshold then
      (true, { p2.2 with OldFiles := p2.2.OldFiles + 1
                         RemovedEntries := p2.2.RemovedEntries + 1 })
    else p2
  if p3.1 then
    { acc with stats := p3.2, removedPaths := acc.removedPaths ++ [path] }
  else
    { acc with stats := p3.2
               validRecords := acc.validRecords ++ [record]
               validPaths := acc.validPaths ++ [path] }

/-- Rebuild of the path-to-index map: `for i, path := range validPaths
{ newPathIndex[path] = i }`. -/
def buildPathIndex (paths : List GoStr) : GoStr → Option Nat :=
  paths.enum.foldl (fun m p => fun q => if q = p.2 then some p.1 else m q) (fun _ => none)

/-- `CleanupIndex(options)`: scan all records with `cleanupStep`; when
anything was removed, rebuild the map, a fresh bloom filter and a fresh
sketch replayed over the retained records, and mark dirty.  `oldThreshold` is
`time.Now().AddDate(0, 0, -N)`, modelled as `now - N*86400` seconds. -/
def CleanupIndex (bhash : Nat → GoStr → Nat) (env : FsEnv) (fi : FilesystemIndexer)
    (options : CleanupOptions) : FilesystemIndexer × CleanupStats :=
  let oldThreshold := env.now - options.OlderThanDays * 86400
  let init : CleanupAcc := ⟨⟨fi.pathRecords.length, 0, 0, 0, 0⟩, [], [], []⟩
  let acc := fi.pathRecords.foldl (cleanupStep env options oldThreshold) init
  let removedCount := fi.pathRecords.length - acc.validRecords.length
  let stats := { acc.stats with FreedBytes := removedCount * 525 }
  if acc.removedPaths ≠ [] then
    let rebuilt := acc.validRecords.foldl
      (fun (p : BloomFilter × CountMinSketch) r =>
        let path := bytesToPath r.Path
        (p.1.AddString bhash path, p.2.Add path r.AccessCount))
      (bloomNew fi.config.BloomFilterSize fi.config.BloomFilterHashes, NewCountMinSketch)
    ({ fi with pathRecords := acc.validRecords
               pathIndex := buildPathIndex acc.validPaths
               bloomFilter := rebuilt.1
               countMinSketch := rebuilt.2
               isDirty := true },
     stats)
  else (fi, stats)

/-! ## Persistence (fs_indexer.go `SaveToFile` / `LoadFromFile`) -/

/-- `binary.Write` of one `PathRecord`: 512 path bytes, `int64` timestamp,
`int32` access count, one flag byte. -/
def encodeRecord (r : PathRecord) : List Nat :=
  r.Path ++ encI 8 r.Timestamp ++ encI 4 r.AccessCount ++ [r.Flags % 256]

/-- `SaveToFile`: header (magic, version 2, record count, root count,
reserved), root paths, bloom filter, sketch, records. -/
def SaveToFile (fi : FilesystemIndexer) : List Nat :=
  [82, 69, 67, 65, 76, 76, 69, 82]
    ++ encLE 4 2
    ++ encLE 4 fi.pathRecords.length
    ++ encLE 4 fi.rootPaths.length
    ++ List.replicate 12 0
    ++ (fi.rootPaths.map (fun rp => encLE 4 rp.length ++ rp)).flatten
    ++ fi.bloomFilter.WriteTo
    ++ fi.countMinSketch.WriteTo
    ++ (fi.pathRecords.map encodeRecord).flatten

/-- Read `n` length-prefixed root paths. -/
def readGoStrs : Nat → List Nat → Option (List GoStr × List Nat)
  | 0, bs => some ([], bs)
  | n + 1, bs =>
      match readLE 4 bs with
      | none => none
      | some (len, r1) =>
          if len ≤ r1.length then
            match readGoStrs n (r1.drop len) with
            | some (ps, rest) => some (r1.take len :: ps, rest)
            | none => none
          else none

/-- Read one 525-byte path record. -/
def readRecord (bs : List Nat) : Option (PathRecord × List Nat) :=
  if 512 ≤ bs.length then
    match readI 8 (bs.drop 512) with
    | none => none
    | some (ts, r1) =>
        match readI 4 r1 with
        | none => none
        | some (ac, r2) =>
            match r2 with
            | f :: rest => some (⟨bs.take 512, ts, ac, f⟩, rest)
            | [] => none
  else none

/-- Read `n` records. -/
def readRecords : Nat → List Nat → Option (List PathRecord × List Nat)
  | 0, bs => some ([], bs)
  | n + 1, bs =>
      match readRecord bs with
      | some (r, rest) =>
          match readRecords n rest with
          | some (rs, rest2) => some (r :: rs, rest2)
          | none => none
      | none => none

/-- The path-to-index map as rebuilt by `LoadFromFile`:
`pathIndex[bytesToPath(record.Path)] = i` for each record in order. -/
def loadPathIndex (records : List PathRecord) : GoStr → Option Nat :=
  records.enum.foldl (fun m p => fun q => if q = bytesToPath p.2.Path then some p.1 else m q)
    (fun _ => none)

/-- `LoadFromFile`: verify magic and version (1 or 2); version 1 reads and
ignores the legacy `bloomSize` word and has no root paths; then bloom,
sketch, records, rebuilding the path map; dirty is cleared. -/
def LoadFromFile (config : FilesystemConfig) (bs : List Nat) : Option FilesystemIndexer :=
  if bs.take 8 = [82, 69, 67, 65, 76, 76, 69, 82] then
    match readLE 4 (bs.drop 8) with
    | none => none
    | some (version, r1) =>
        if version = 1 ∨ version = 2 then
          match readLE 4 r1 with
          | none => none
          | some (recordCount, r2) =>
              match readLE 4 r2 with
              | none => none
              | some (word3, r3) =>
                  let rootPathCount := if version = 2 then word3 else 0
                  if 12 ≤ r3.length then
                    match readGoStrs rootPathCount (r3.drop 12) with
                    | none => none
                    | some (roots, r5) =>
                        match BloomFilter.ReadFrom r5 with
                        | none => none
                        | some (bf, r6) =>
                            match readInts (4 * 2048) r6 with
                            | none => none
                            | some (tbl, r7) =>
                                match readRecords recordCount r7 with
                                | none => none
                                | some (records, _) =>
                                    some { bloomFilter := bf
                                           countMinSketch := ⟨tbl⟩
                                           pathRecords := records
                                           pathIndex := loadPathIndex records
                                           rootPaths := roots
                                           config := config
                                           isDirty := false }
                  else none
        else none
  else none


/-! ## Specification-side cleanup rules (for claim C3)

These follow the spec text: rules evaluated in the order path-prefix filter,
stale check, age threshold; a single match removes the record. -/

/-- Spec rule 1: non-empty path filter and the record path begins with it. -/
def cleanupRulePathFilter (options : CleanupOptions) (record : PathRecord) : Bool :=
  decide (options.Path ≠ [] ∧ options.Path.isPrefixOf (bytesToPath record.Path))

/-- Spec rule 2: stale removal requested and the path no longer exists. -/
def cleanupRuleStale (env : FsEnv) (options : CleanupOptions) (record : PathRecord) : Bool :=
  options.RemoveStale && env.notExist (bytesToPath record.Path)

/-- Spec rule 3: age threshold positive and the record is strictly older. -/
def cleanupRuleOld (options : CleanupOptions) (oldThreshold : Int) (record : PathRecord) : Bool :=
  decide (options.OlderThanDays > 0) && decide (record.Timestamp < oldThreshold)

/-- Spec removal decision: any of the three rules matches. -/
def shouldRemoveSpec (env : FsEnv) (options : CleanupOptions) (oldThreshold : Int)
    (record : PathRecord) : Bool :=
  cleanupRulePathFilter options record || cleanupRuleStale env options record ||
    cleanupRuleOld options oldThreshold record


/-- Specification-side invariant (spec 8.1): every key of the auxiliary
path map points at a record whose stored path bytes decode back to the key. -/
def pathIndexInv (fi : FilesystemIndexer) : Prop :=
  ∀ (p : GoStr) (i : Nat), fi.pathIndex p = some i →
    ∃ r, fi.pathRecords[i]? = some r ∧ bytesToPath r.Path = p

/-! ## Help strategy dispatcher (strategies/manager.go) -/

/-- A registered help strategy, as the dispatcher consumes it: its
`SupportsCommand` predicate, its `GetHelp` behaviour — help text together
with an error, `none` standing for Go's nil error — the `Priority` of the
interface (never consulted by the dispatcher), and whether its dynamic type
is `*TldrStrategy` (the manager's type assertion skips those). -/
structure HelpStrategy where
  SupportsCommand : GoStr → Bool
  GetHelp : List GoStr → GoStr × Option GoStr
  Priority : Int
  isTldr : Bool

/-- Errors produced by the manager's `GetHelp`. -/
inductive GetHelpErr where
  | noCommandProvided : GetHelpErr
  | noStrategyFound : GoStr → GetHelpErr
  | failedToGetHelp : GoStr → Option GoStr → GetHelpErr
deriving DecidableEq, Repr

/-- `NewCommand(parts).BaseCmd`: the first token. -/
def commandBaseCmd (parts : List GoStr) : GoStr := parts.headD []

/-- `NewCommand(parts).FullName`: the tokens joined by a space. -/
def commandFullName (parts : List GoStr) : GoStr := List.intercalate [32] parts

/-- The `supportedStrategies` loop of `GetHelp`: every registered strategy
that is not a `*TldrStrategy` and whose `SupportsCommand(cmd.BaseCmd)`
check passes, preserving registration order. -/
def supportedOf (strategies : List HelpStrategy) (baseCmd : GoStr) : List HelpStrategy :=
  strategies.filter (fun s => !s.isTldr && s.SupportsCommand baseCmd)

/-- The `for _, strategy := range supportedStrategies` loop of `GetHelp`:
return the first help with a nil error and non-empty text; otherwise
`lastErr` is set to each attempt's error in turn. -/
def tryStrategies (cmdParts : List GoStr) :
    List HelpStrategy → Option GoStr → GoStr ⊕ Option GoStr
  | [], lastErr => Sum.inr lastErr
  | s :: rest, _ =>
      let r := s.GetHelp cmdParts
      if r.2 = none ∧ r.1 ≠ [] then Sum.inl r.1
      else tryStrategies cmdParts rest r.2

/-- `HelpStrategyManager.GetHelp`: empty input is rejected; a fresh
`TldrStrategy` (behaviour `tldr`) is tried unconditionally first and its
help returned when its error is nil and the text non-empty; then the
supported non-TLDR strategies are tried in registration order; with no
supported strategy (and hence no recorded error) a dedicated "no help
strategy found" error is returned, otherwise the last error is wrapped. -/
def managerGetHelp (tldr : List GoStr → GoStr × Option GoStr)
    (strategies : List HelpStrategy) (cmdParts : List GoStr) :
    Except GetHelpErr GoStr :=
  if cmdParts.length = 0 then Except.error GetHelpErr.noCommandProvided
  else
    let t := tldr cmdParts
    if t.2 = none ∧ t.1 ≠ [] then Except.ok t.1
    else
      let sup := supportedOf strategies (commandBaseCmd cmdParts)
      match tryStrategies cmdParts sup none with
      | Sum.inl help => Except.ok help
      | Sum.inr lastErr =>
          if sup.length = 0 ∧ lastErr = none then
            Except.error (GetHelpErr.noStrategyFound (commandFullName cmdParts))
          else
            Except.error (GetHelpErr.failedToGetHelp (commandFullName cmdParts) lastErr)

/-! ## Directory indexing (fs_indexer.go `IndexDirectoryWithProgress` and
`IndexDirectoriesWithProgress`)

The tree handed to `filepath.WalkDir` is modelled explicitly: each node
carries the full path the callback would receive; directories carry their
children; `bad` nodes stand for entries whose visit reports a walk error,
with a flag marking `os.IsPermission`.  `FsForest` is the child list, a
mutual inductive so that the walk is structurally recursive.  The
`shouldSkipPath` predicate (glob matching over the ignore patterns) is
abstracted as a `skip` parameter, like the bloom hash family.  Progress
bars and log output are omitted — they do not affect state or result. -/

mutual
inductive FsEntry where
  | file : GoStr → FsEntry
  | dir : GoStr → FsForest → FsEntry
  | bad : GoStr → Bool → GoStr → FsEntry
inductive FsForest where
  | nil : FsForest
  | cons : FsEntry → FsForest → FsForest
end

/-- The path of an entry (first argument of the WalkDir callback). -/
def FsEntry.path : FsEntry → GoStr
  | FsEntry.file p => p
  | FsEntry.dir p _ => p
  | FsEntry.bad p _ _ => p

/-- Error results of a directory indexing run. -/
inductive IndexErr where
  | limitReached : IndexErr
  | walkFailed : GoStr → IndexErr
  | noDirectories : IndexErr
deriving DecidableEq, Repr

mutual
/-- The WalkDir callback of the two indexing functions, applied to one
entry and its subtree: permission errors are swallowed, other walk errors
abort; a skipped directory prunes its subtree (`filepath.SkipDir`) and a
skipped file is passed over; at the file cap the walk aborts with the
"max indexed files limit reached" error; otherwise the path is added with
the current time, the counter incremented and, for a directory, the
children visited in order. -/
def walkEntry (bhash : Nat → GoStr → Nat) (env : FsEnv) (skip : GoStr → Bool)
    (maxFiles : Nat) : FsEntry → FilesystemIndexer × Nat →
    (FilesystemIndexer × Nat) × Option IndexErr
  | FsEntry.bad _ perm msg, st =>
      if perm then (st, none) else (st, some (IndexErr.walkFailed msg))
  | FsEntry.file p, st =>
      if skip p then (st, none)
      else if st.2 ≥ maxFiles then (st, some IndexErr.limitReached)
      else (((AddPath bhash env st.1 p env.now).1, st.2 + 1), none)
  | FsEntry.dir p es, st =>
      if skip p then (st, none)
      else if st.2 ≥ maxFiles then (st, some IndexErr.limitReached)
      else walkForest bhash env skip maxFiles es ((AddPath bhash env st.1 p env.now).1, st.2 + 1)

/-- Visit a child list in order, stopping at the first error. -/
def walkForest (bhash : Nat → GoStr → Nat) (env : FsEnv) (skip : GoStr → Bool)
    (maxFiles : Nat) : FsForest → FilesystemIndexer × Nat →
    (FilesystemIndexer × Nat) × Option IndexErr
  | FsForest.nil, st => (st, none)
  | FsForest.cons e rest, st =>
      match walkEntry bhash env skip maxFiles e st with
      | (st1, none) => walkForest bhash env skip maxFiles rest st1
      | (st1, some err) => (st1, some err)
end

/-- `addRootPath`: track the absolute root path if not already tracked. -/
def addRootPath (env : FsEnv) (fi : FilesystemIndexer) (rootPath : GoStr) :
    FilesystemIndexer :=
  let absPath := env.absPath rootPath
  if absPath ∈ fi.rootPaths then fi
  else { fi with rootPaths := fi.rootPaths ++ [absPath] }

/-- `IndexDirectoryWithProgress(rootPath)`: track the root, walk it with a
count starting at zero, and return the walk's error — including the limit
error. -/
def IndexDirectoryWithProgress (bhash : Nat → GoStr → Nat) (env : FsEnv)
    (skip : GoStr → Bool) (fi : FilesystemIndexer) (root : FsEntry) :
    FilesystemIndexer × Option IndexErr :=
  let fi1 := addRootPath env fi root.path
  let r := walkEntry bhash env skip fi1.config.MaxIndexedFiles root (fi1, 0)
  (r.1.1, r.2)

/-- The root loop of `IndexDirectoriesWithProgress`: each root is tracked,
then walked against the cumulative `totalCount`; a limit-reached walk
error breaks out of the loop (skipping the remaining roots); every other
walk error is only logged and the loop continues. -/
def indexRootsLoop (bhash : Nat → GoStr → Nat) (env : FsEnv) (skip : GoStr → Bool) :
    List FsEntry → FilesystemIndexer × Nat → FilesystemIndexer × Nat
  | [], st => st
  | root :: rest, st =>
      let fi1 := addRootPath env st.1 root.path
      match walkEntry bhash env skip fi1.config.MaxIndexedFiles root (fi1, st.2) with
      | (st1, some IndexErr.limitReached) => st1
      | (st1, _) => indexRootsLoop bhash env skip rest st1

/-- `IndexDirectoriesWithProgress(rootPaths)`: an empty list is rejected
with "no directories provided for indexing"; otherwise the root loop runs
and the function returns nil unconditionally. -/
def IndexDirectoriesWithProgress (bhash : Nat → GoStr → Nat) (env : FsEnv)
    (skip : GoStr → Bool) (fi : FilesystemIndexer) (roots : List FsEntry) :
    FilesystemIndexer × Option IndexErr :=
  if roots.length = 0 then (fi, some IndexErr.noDirectories)
  else ((indexRootsLoop bhash env skip roots (fi, 0)).1, none)

/-! # Part 2: Theorems -/

/-! ## Codec round trips -/

theorem encLE_length (w n : Nat) : (encLE w n).length = w := by
  induction w generalizing n with
  | zero => rfl
  | succ w ih => simp [encLE, ih]

theorem decLE_encLE (w n : Nat) : decLE (encLE w n) = n % 256 ^ w := by
  induction w generalizing n with
  | zero => simp [encLE, decLE, Nat.mod_one]
  | succ w ih =>
      have h : (256 : Nat) ^ (w + 1) = 256 * 256 ^ w := by ring
      rw [encLE, decLE, ih, h, Nat.mod_mul]
      omega

theorem decLE_encLE_of_lt {w n : Nat} (h : n < 256 ^ w) : decLE (encLE w n) = n := by
  rw [decLE_encLE, Nat.mod_eq_of_lt h]

theorem readLE_encLE (w n : Nat) (rest : List Nat) (h : n < 256 ^ w) :
    readLE w (encLE w n ++ rest) = some (n, rest) := by
  have hl : (encLE w n).length = w := encLE_length w n
  simp only [readLE, List.length_append, hl]
  rw [if_pos (by omega)]
  rw [List.take_left' hl, List.drop_left' hl, decLE_encLE_of_lt h]

theorem encI_length (w : Nat) (t : Int) : (encI w t).length = w := encLE_length _ _

theorem readI_encI_four (t : Int) (rest : List Nat)
    (h1 : -(2 ^ 31) ≤ t) (h2 : t < 2 ^ 31) :
    readI 4 (encI 4 t ++ rest) = some (t, rest) := by
  have hn : (t % 2 ^ (8 * 4)).toNat < 256 ^ 4 := by norm_num; omega
  unfold readI encI
  rw [readLE_encLE _ _ _ hn]
  have ht : twosComp 4 (t % 2 ^ (8 * 4)).toNat = t := by
    unfold twosComp
    norm_num
    split <;> omega
  show some (twosComp 4 (t % 2 ^ (8 * 4)).toNat, rest) = some (t, rest)
  rw [ht]

theorem readI_encI_eight (t : Int) (rest : List Nat)
    (h1 : -(2 ^ 63) ≤ t) (h2 : t < 2 ^ 63) :
    readI 8 (encI 8 t ++ rest) = some (t, rest) := by
  have hn : (t % 2 ^ (8 * 8)).toNat < 256 ^ 8 := by norm_num; omega
  unfold readI encI
  rw [readLE_encLE _ _ _ hn]
  have ht : twosComp 8 (t % 2 ^ (8 * 8)).toNat = t := by
    unfold twosComp
    norm_num
    split <;> omega
  show some (twosComp 8 (t % 2 ^ (8 * 8)).toNat, rest) = some (t, rest)
  rw [ht]

/-! ## Overstrike stripping -/

theorem removeOverstrike_of_no_bspace (s : List Char) (h : bspace ∉ s) :
    removeOverstrike s = s := by
  induction s with
  | nil => rfl
  | cons c0 tail ih =>
      match tail with
      | [] => rfl
      | [c1] => rfl
      | c1 :: c2 :: rest =>
          have hc1 : ¬ (c1 = bspace) := by
            intro hc
            exact h (by simp [hc])
          have htail : bspace ∉ c1 :: c2 :: rest := fun hm => h (List.mem_cons_of_mem _ hm)
          rw [removeOverstrike, if_neg hc1, ih htail]

/-- Claim C8 (counterexample): overstrike stripping is *not* idempotent.  On
the five-rune input `a b BS BS c` one pass yields `a BS c`, and a second pass
collapses that further to `c`. -/
theorem claim_C8_counterexample :
    removeOverstrike (removeOverstrike ['a', 'b', bspace, bspace, 'c']) ≠
      removeOverstrike ['a', 'b', bspace, bspace, 'c'] := by
  decide

/-- Claim C8 (amended): a single stripping pass is a fixpoint whenever its
output contains no backspace rune; in general (when a collapsed-in character
is itself a backspace) a second pass can strip further. -/
theorem claim_C8 (s : List Char) (h : bspace ∉ removeOverstrike s) :
    removeOverstrike (removeOverstrike s) = removeOverstrike s :=
  removeOverstrike_of_no_bspace _ h

/-- Witness for the amended claim C8 on the documentation example
`N BS N A BS A M BS M E BS E`, which strips to `NAME` in one pass. -/
theorem claim_C8_witness :
    bspace ∉ removeOverstrike ['N', bspace, 'N', 'A', bspace, 'A', 'M', bspace, 'M', 'E', bspace, 'E'] ∧
      removeOverstrike (removeOverstrike ['N', bspace, 'N', 'A', bspace, 'A', 'M', bspace, 'M', 'E', bspace, 'E']) =
        removeOverstrike ['N', bspace, 'N', 'A', bspace, 'A', 'M', bspace, 'M', 'E', bspace, 'E'] :=
  ⟨by decide, claim_C8 _ (by decide)⟩

/-! ## AVL tree lemmas -/

theorem toList_mkNode {K V : Type} (k : K) (v : V) (l r : AVLNode K V) :
    toList (mkNode k v l r) = toList l ++ (k, v) :: toList r := rfl

theorem toList_rotateLeft {K V : Type} (t : AVLNode K V) :
    toList (rotateLeft t) = toList t := by
  match t with
  | .nil => rfl
  | .node k v h l .nil => rfl
  | .node k v h l (.node pk pv ph pl pr) =>
      simp [rotateLeft, mkNode, toList, List.append_assoc]

theorem toList_rotateRight {K V : Type} (t : AVLNode K V) :
    toList (rotateRight t) = toList t := by
  match t with
  | .nil => rfl
  | .node k v h .nil r => rfl
  | .node k v h (.node pk pv ph pl pr) r =>
      simp [rotateRight, mkNode, toList, List.append_assoc]

theorem OptLB_trans {K : Type} [Preorder K] {lo : Option K} {a b : K}
    (h1 : OptLB lo a) (h2 : a < b) : OptLB lo b := by
  cases lo with
  | none => trivial
  | some x => exact lt_trans h1 h2

theorem OptUB_trans {K : Type} [Preorder K] {hi : Option K} {a b : K}
    (h1 : a < b) (h2 : OptUB b hi) : OptUB a hi := by
  cases hi with
  | none => trivial
  | some x => exact lt_trans h1 h2

theorem Bounded_rotateLeft {K V : Type} [Preorder K] {lo hi : Option K} {t : AVLNode K V}
    (hb : Bounded lo hi t) : Bounded lo hi (rotateLeft t) := by
  match t with
  | .nil => exact hb
  | .node k v h l .nil => exact hb
  | .node k v h l (.node pk pv ph pl pr) =>
      cases hb with
      | node hlk hkh hl hr =>
          cases hr with
          | node hpk hph hpl hpr =>
              exact Bounded.node (OptLB_trans hlk hpk) hph
                (Bounded.node hlk hpk hl hpl) hpr

theorem Bounded_rotateRight {K V : Type} [Preorder K] {lo hi : Option K} {t : AVLNode K V}
    (hb : Bounded lo hi t) : Bounded lo hi (rotateRight t) := by
  match t with
  | .nil => exact hb
  | .node k v h .nil r => exact hb
  | .node k v h (.node pk pv ph pl pr) r =>
      cases hb with
      | node hlk hkh hl hr =>
          cases hl with
          | node hpk hph hpl hpr =>
              exact Bounded.node hpk (OptUB_trans hph hkh) hpl
                (Bounded.node hph hkh hpr hr)

theorem toList_rebalanceInsert {K V : Type} [LinearOrder K] (key : K) (n : AVLNode K V) :
    toList (rebalanceInsert key n) = toList n := by
  cases n with
  | nil => rfl
  | node nk nv h l r =>
      simp only [rebalanceInsert]
      split_ifs with h1 h2
      · cases l with
        | nil => rfl
        | node lk lv lh ll lr =>
            dsimp only
            split_ifs with h3
            · rw [toList_rotateRight]
            · rw [toList_rotateRight, toList_mkNode, toList_rotateLeft]
              rfl
      · cases r with
        | nil => rfl
        | node rk rv rh rl rr =>
            dsimp only
            split_ifs with h3
            · rw [toList_rotateLeft]
            · rw [toList_rotateLeft, toList_mkNode, toList_rotateRight]
              rfl
      · rfl

theorem Bounded_rebalanceInsert {K V : Type} [LinearOrder K] {lo hi : Option K}
    (key : K) {n : AVLNode K V} (hb : Bounded lo hi n) :
    Bounded lo hi (rebalanceInsert key n) := by
  cases n with
  | nil => exact hb
  | node nk nv h l r =>
      simp only [rebalanceInsert]
      split_ifs with h1 h2
      · cases l with
        | nil => exact hb
        | node lk lv lh ll lr =>
            dsimp only
            split_ifs with h3
            · exact Bounded_rotateRight hb
            · cases hb with
              | node hlk hkh hl hr =>
                  exact Bounded_rotateRight
                    (Bounded.node hlk hkh (Bounded_rotateLeft hl) hr)
      · cases r with
        | nil => exact hb
        | node rk rv rh rl rr =>
            dsimp only
            split_ifs with h3
            · exact Bounded_rotateLeft hb
            · cases hb with
              | node hlk hkh hl hr =>
                  exact Bounded_rotateLeft
                    (Bounded.node hlk hkh hl (Bounded_rotateRight hr))
      · exact hb

theorem Bounded_mem_ub {K V : Type} [Preorder K] {lo : Option K} {b : K} {t : AVLNode K V}
    (hb : Bounded lo (some b) t) : ∀ p ∈ toList t, p.1 < b := by
  induction t generalizing lo b with
  | nil => intro p hp; cases hp
  | node k v h l r ihl ihr =>
      cases hb with
      | node hlk hkh hl hr =>
          intro p hp
          rw [toList, List.mem_append] at hp
          rcases hp with hp | hp
          · exact lt_trans (ihl hl p hp) hkh
          · rcases List.mem_cons.mp hp with rfl | hp
            · exact hkh
            · exact ihr hr p hp

theorem Bounded_mem_lb {K V : Type} [Preorder K] {hi : Option K} {a : K} {t : AVLNode K V}
    (hb : Bounded (some a) hi t) : ∀ p ∈ toList t, a < p.1 := by
  induction t generalizing hi a with
  | nil => intro p hp; cases hp
  | node k v h l r ihl ihr =>
      cases hb with
      | node hlk hkh hl hr =>
          intro p hp
          rw [toList, List.mem_append] at hp
          rcases hp with hp | hp
          · exact ihl hl p hp
          · rcases List.mem_cons.mp hp with rfl | hp
            · exact hlk
            · exact lt_trans hlk (ihr hr p hp)

theorem insSorted_append_lt {K V : Type} [LinearOrder K] (key : K) (value : V)
    {nk : K} (nv : V) (xs ys : List (K × V)) (h : key < nk) :
    insSorted key value (xs ++ (nk, nv) :: ys) =
      insSorted key value xs ++ (nk, nv) :: ys := by
  induction xs with
  | nil => simp [insSorted, h]
  | cons p rest ih =>
      obtain ⟨k, v⟩ := p
      by_cases h1 : key < k
      · simp [insSorted, h1]
      · by_cases h2 : k < key
        · simp [insSorted, h1, h2, ih]
        · simp [insSorted, h1, h2]

theorem insSorted_append_gt {K V : Type} [LinearOrder K] (key : K) (value : V)
    {nk : K} (nv : V) (xs ys : List (K × V)) (h : nk < key)
    (hxs : ∀ p ∈ xs, p.1 < key) :
    insSorted key value (xs ++ (nk, nv) :: ys) =
      xs ++ (nk, nv) :: insSorted key value ys := by
  induction xs with
  | nil => simp [insSorted, not_lt_of_gt h, h]
  | cons p rest ih =>
      obtain ⟨k, v⟩ := p
      have hk : k < key := hxs (k, v) (List.mem_cons_self _ _)
      have hrest : ∀ p ∈ rest, p.1 < key := fun p hp => hxs p (List.mem_cons_of_mem _ hp)
      simp [insSorted, not_lt_of_gt hk, hk, ih hrest]

theorem insSorted_append_eq {K V : Type} [LinearOrder K] (key : K) (value : V)
    (nv : V) (xs ys : List (K × V)) (hxs : ∀ p ∈ xs, p.1 < key) :
    insSorted key value (xs ++ (key, nv) :: ys) = xs ++ (key, nv) :: ys := by
  induction xs with
  | nil => simp [insSorted, lt_irrefl]
  | cons p rest ih =>
      obtain ⟨k, v⟩ := p
      have hk : k < key := hxs (k, v) (List.mem_cons_self _ _)
      have hrest : ∀ p ∈ rest, p.1 < key := fun p hp => hxs p (List.mem_cons_of_mem _ hp)
      simp [insSorted, not_lt_of_gt hk, hk, ih hrest]

theorem insertRecursive_spec {K V : Type} [LinearOrder K] {lo hi : Option K}
    (t : AVLNode K V) (hb : Bounded lo hi t) (key : K) (value : V)
    (hlo : OptLB lo key) (hhi : OptUB key hi) :
    toList (insertRecursive t key value) = insSorted key value (toList t) ∧
      Bounded lo hi (insertRecursive t key value) := by
  induction t generalizing lo hi with
  | nil =>
      refine ⟨rfl, ?_⟩
      exact Bounded.node hlo hhi Bounded.nil Bounded.nil
  | node nk nv h l r ihl ihr =>
      cases hb with
      | node hlk hkh hl hr =>
          rcases lt_trichotomy key nk with hcmp | hcmp | hcmp
          · have ⟨ih1, ih2⟩ := ihl hl hlo hcmp
            simp only [insertRecursive, if_pos hcmp, if_neg (not_lt_of_gt hcmp)]
            constructor
            · rw [toList_rebalanceInsert, toList_mkNode, ih1, toList,
                insSorted_append_lt key value nv _ _ hcmp]
            · exact Bounded_rebalanceInsert key (Bounded.node hlk hkh ih2 hr)
          · subst hcmp
            simp only [insertRecursive, if_neg (lt_irrefl key)]
            constructor
            · rw [toList_rebalanceInsert, toList_mkNode, toList,
                insSorted_append_eq key value nv _ _ (Bounded_mem_ub hl)]
            · exact Bounded_rebalanceInsert key (Bounded.node hlk hkh hl hr)
          · have ⟨ih1, ih2⟩ := ihr hr hcmp hhi
            simp only [insertRecursive, if_neg (not_lt_of_gt hcmp), if_pos hcmp]
            constructor
            · rw [toList_rebalanceInsert, toList_mkNode, ih1, toList,
                insSorted_append_gt key value nv _ _ hcmp
                  (fun p hp => lt_trans (Bounded_mem_ub hl p hp) hcmp)]
            · exact Bounded_rebalanceInsert key (Bounded.node hlk hkh hl ih2)

theorem Pairwise_toList {K V : Type} [Preorder K] {lo hi : Option K} {t : AVLNode K V}
    (hb : Bounded lo hi t) : (toList t).Pairwise (fun p q => p.1 < q.1) := by
  induction t generalizing lo hi with
  | nil => exact List.Pairwise.nil
  | node k v h l r ihl ihr =>
      cases hb with
      | node hlk hkh hl hr =>
          rw [toList, List.pairwise_append]
          refine ⟨ihl hl, List.Pairwise.cons (fun q hq => Bounded_mem_lb hr q hq) (ihr hr), ?_⟩
          intro p hp q hq
          rcases List.mem_cons.mp hq with rfl | hq
          · exact Bounded_mem_ub hl p hp
          · exact lt_trans (Bounded_mem_ub hl p hp) (Bounded_mem_lb hr q hq)

theorem insSorted_of_mem {K V : Type} [LinearOrder K] (key : K) (value : V)
    (xs : List (K × V)) (hs : xs.Pairwise (fun p q => p.1 < q.1))
    (hmem : key ∈ xs.map Prod.fst) : insSorted key value xs = xs := by
  induction xs with
  | nil => cases hmem
  | cons p rest ih =>
      obtain ⟨k, v⟩ := p
      rw [List.map_cons, List.mem_cons] at hmem
      have hrest_lt : ∀ q ∈ rest, k < q.1 := fun q hq => (List.pairwise_cons.mp hs).1 q hq
      rcases hmem with rfl | hmem
      · simp [insSorted, lt_irrefl]
      · obtain ⟨q, hq, rfl⟩ := List.mem_map.mp hmem
        have hk : k < q.1 := hrest_lt q hq
        simp [insSorted, not_lt_of_gt hk, hk,
          ih (List.pairwise_cons.mp hs).2 (List.mem_map.mpr ⟨q, hq, rfl⟩)]

/-- Claim C2 (counterexample): inserting an existing key does *not* update the
stored value.  The duplicate branch of `insertRecursive` is empty, so inserting
key "a" with new metadata (frequency 2) into a tree whose "a" record has
frequency 1 returns the tree entirely unchanged — the frequency is not
increased and the timestamp is not promoted. -/
theorem claim_C2_counterexample :
    insertRecursive (AVLNode.node [97] (⟨[97], some 100, 1⟩ : CommandMetadata) 1 .nil .nil)
        [97] (⟨[97], some 200, 2⟩ : CommandMetadata)
      = AVLNode.node [97] (⟨[97], some 100, 1⟩ : CommandMetadata) 1 .nil .nil ∧
    searchNode (insertRecursive
        (AVLNode.node [97] (⟨[97], some 100, 1⟩ : CommandMetadata) 1 .nil .nil)
        [97] (⟨[97], some 200, 2⟩ : CommandMetadata)) [97]
      = some ⟨[97], some 100, 1⟩ ∧
    (⟨[97], some 100, 1⟩ : CommandMetadata) ≠ (⟨[97], some 200, 2⟩ : CommandMetadata) := by
  refine ⟨by decide, by decide, by decide⟩

/-- Claim C2 (amended): for every command key already present in the Ranked
Command Store, `insert(command, metadata)` is idempotent on the key and creates
no duplicate node — but it leaves the stored record *unchanged* (the Go
duplicate-key branch is empty): the old metadata is kept and the newly inserted
metadata is discarded. -/
theorem claim_C2 (t : AVLNode GoStr CommandMetadata) (key : GoStr) (value : CommandMetadata)
    (hb : Bounded none none t) (hmem : key ∈ (toList t).map Prod.fst) :
    toList (insertRecursive t key value) = toList t := by
  have hspec := insertRecursive_spec t hb key value trivial trivial
  rw [hspec.1, insSorted_of_mem key value _ (Pairwise_toList hb) hmem]

/-- Witness for the amended claim C2: a one-node store containing key "a"
keeps its single old record when "a" is re-inserted with fresh metadata. -/
theorem claim_C2_witness :
    Bounded none none (AVLNode.node [97] (⟨[97], some 100, 1⟩ : CommandMetadata) 1 .nil .nil) ∧
    [97] ∈ (toList (AVLNode.node [97] (⟨[97], some 100, 1⟩ : CommandMetadata) 1 .nil .nil)).map
        Prod.fst ∧
    toList (insertRecursive
        (AVLNode.node [97] (⟨[97], some 100, 1⟩ : CommandMetadata) 1 .nil .nil)
        [97] (⟨[97], some 200, 2⟩ : CommandMetadata))
      = toList (AVLNode.node [97] (⟨[97], some 100, 1⟩ : CommandMetadata) 1 .nil .nil) :=
  ⟨Bounded.node trivial trivial Bounded.nil Bounded.nil, by decide,
    claim_C2 _ _ _ (Bounded.node trivial trivial Bounded.nil Bounded.nil) (by decide)⟩

/-! ## History ingestion lemmas -/

theorem ingest_freq (c : GoStr) (hc : c ≠ []) (l : List HistoryEntry) :
    ∀ acc, ((l.foldl ingestStep acc).1) c = acc.1 c + (l.filter (relevantFor c)).length := by
  induction l with
  | nil => intro acc; simp
  | cons h rest ih =>
      intro acc
      rw [List.foldl_cons]
      rw [ih]
      rcases hts : h.Timestamp with _ | ts
      · have hrel : relevantFor c h = false := by
          simp [relevantFor, hts]
        simp [ingestStep, hts, List.filter_cons, hrel]
      · by_cases hcmd : h.Command = []
        · have hrel : relevantFor c h = false := by
            simp [relevantFor, hcmd]
            intro heq
            exact absurd heq hc
          simp [ingestStep, hts, hcmd, List.filter_cons, hrel]
        · by_cases hceq : c = h.Command
          · have hrel : relevantFor c h = true := by
              simp [relevantFor, hts, hceq]
            simp [ingestStep, hts, hcmd, List.filter_cons, hrel, if_pos hceq]
            omega
          · have hrel : relevantFor c h = false := by
              simp [relevantFor]
              intro heq
              exact absurd heq.symm hceq
            simp [ingestStep, hts, hcmd, List.filter_cons, hrel, if_neg hceq]

theorem ingest_keys (c : GoStr) (l : List HistoryEntry) :
    ∀ acc, (c ∈ (l.foldl ingestStep acc).2.2 ↔
      c ∈ acc.2.2 ∨ (c ≠ [] ∧ l.filter (relevantFor c) ≠ [])) := by
  induction l with
  | nil => intro acc; simp
  | cons h rest ih =>
      intro acc
      rw [List.foldl_cons, ih]
      rcases hts : h.Timestamp with _ | ts
      · have hrel : relevantFor c h = false := by simp [relevantFor, hts]
        simp [ingestStep, hts, List.filter_cons, hrel]
      · by_cases hcmd : h.Command = []
        · by_cases hce : c = []
          · simp [ingestStep, hts, hcmd, hce]
          · have hrel : relevantFor c h = false := by
              simp only [relevantFor, Bool.and_eq_false_iff]
              left
              simp only [beq_eq_false_iff_ne, ne_eq, hcmd]
              intro he
              exact hce he.symm
            simp [ingestStep, hts, hcmd, List.filter_cons, hrel]
        · by_cases hceq : c = h.Command
          · have hrel : relevantFor c h = true := by
              simp [relevantFor, hts, hceq]
            have hcne : c ≠ [] := by rw [hceq]; exact hcmd
            have hkey : c ∈ (ingestStep acc h).2.2 := by
              simp only [ingestStep, hts, if_neg hcmd]
              by_cases hin : h.Command ∈ acc.2.2
              · rw [if_pos hin, hceq]
                exact hin
              · rw [if_neg hin, hceq]
                exact List.mem_append_right _ (List.mem_singleton_self _)
            simp [List.filter_cons, hrel, hkey, hcne]
          · have hrel : relevantFor c h = false := by
              simp only [relevantFor, Bool.and_eq_false_iff]
              left
              simp only [beq_eq_false_iff_ne, ne_eq]
              intro he
              exact hceq he.symm
            have hkey : (c ∈ (ingestStep acc h).2.2 ↔ c ∈ acc.2.2) := by
              simp only [ingestStep, hts, if_neg hcmd]
              by_cases hin : h.Command ∈ acc.2.2
              · rw [if_pos hin]
              · rw [if_neg hin]
                simp [List.mem_append, hceq]
            simp [List.filter_cons, hrel, hkey]

theorem omaxStep_spec (o : Option Int) (t : Int) :
    ∀ v, omaxStep o t = some v → (v = t ∨ o = some v) ∧ t ≤ v ∧ (∀ a, o = some a → a ≤ v) := by
  intro v hv
  cases o with
  | none =>
      simp [omaxStep] at hv
      subst hv
      exact ⟨Or.inl rfl, le_refl _, by intro a h; cases h⟩
  | some old =>
      simp only [omaxStep] at hv
      by_cases hlt : old < t
      · rw [if_pos hlt] at hv
        injection hv with hv
        subst hv
        exact ⟨Or.inl rfl, le_refl _, by intro a h; injection h with h; omega⟩
      · rw [if_neg hlt] at hv
        injection hv with hv
        subst hv
        exact ⟨Or.inr rfl, by omega, by intro a h; injection h with h; omega⟩

theorem omaxStep_ne_none (o : Option Int) (t : Int) : omaxStep o t ≠ none := by
  cases o with
  | none => simp [omaxStep]
  | some old =>
      simp only [omaxStep]
      by_cases hlt : old < t <;> simp [hlt]


theorem ingest_last (c : GoStr) (hc : c ≠ []) (l : List HistoryEntry) :
    ∀ acc,
      ((l.foldl ingestStep acc).2.1 c = none →
        acc.2.1 c = none ∧ l.filter (relevantFor c) = []) ∧
      (∀ m, (l.foldl ingestStep acc).2.1 c = some m →
        m ∈ optToList (acc.2.1 c) ++
           ((l.filter (relevantFor c)).filterMap HistoryEntry.Timestamp) ∧
        ∀ t ∈ optToList (acc.2.1 c) ++
           ((l.filter (relevantFor c)).filterMap HistoryEntry.Timestamp), t ≤ m) := by
  induction l with
  | nil =>
      intro acc
      refine ⟨fun h => ⟨h, rfl⟩, fun m hm => ?_⟩
      simp only [List.foldl_nil] at hm
      simp [optToList, hm]
  | cons h rest ih =>
      intro acc
      rw [List.foldl_cons]
      rcases hts : h.Timestamp with _ | ts
      · have hrel : relevantFor c h = false := by simp [relevantFor, hts]
        have hstep : ingestStep acc h = acc := by simp [ingestStep, hts]
        rw [hstep, List.filter_cons, if_neg (by simp [hrel])]
        exact ih acc
      · by_cases hcmd : h.Command = []
        · have hrel : relevantFor c h = false := by
            simp only [relevantFor, Bool.and_eq_false_iff]
            left
            simp only [beq_eq_false_iff_ne, ne_eq, hcmd]
            intro he
            exact hc he.symm
          have hstep : ingestStep acc h = acc := by simp [ingestStep, hts, hcmd]
          rw [hstep, List.filter_cons, if_neg (by simp [hrel])]
          exact ih acc
        · by_cases hceq : c = h.Command
          · have hrel : relevantFor c h = true := by simp [relevantFor, hts, hceq]
            have hstep : (ingestStep acc h).2.1 c = omaxStep (acc.2.1 c) ts := by
              simp only [ingestStep, hts, if_neg hcmd]
              rw [if_pos hceq, ← hceq]
            have hfc : (h :: rest).filter (relevantFor c) = h :: rest.filter (relevantFor c) := by
              rw [List.filter_cons, if_pos (by simp [hrel])]
            have hfm : ((h :: rest).filter (relevantFor c)).filterMap HistoryEntry.Timestamp =
                ts :: (rest.filter (relevantFor c)).filterMap HistoryEntry.Timestamp := by
              rw [hfc, List.filterMap_cons, hts]
            have hsome : ∀ acc2 : (GoStr → Nat) × (GoStr → Option Int) × List GoStr,
                acc2.2.1 c = omaxStep (acc.2.1 c) ts →
                acc2.2.1 c ≠ none := by
              intro acc2 he
              rw [he]
              exact omaxStep_ne_none _ _
            constructor
            · intro hnone
              have ⟨h1, _⟩ := (ih (ingestStep acc h)).1 hnone
              exact absurd h1 (by rw [hstep]; exact omaxStep_ne_none _ _)
            · intro m hm
              have ⟨hmem, hbd⟩ := (ih (ingestStep acc h)).2 m hm
              rw [hstep] at hmem hbd
              rcases hv : omaxStep (acc.2.1 c) ts with _ | v
              · exact absurd hv (omaxStep_ne_none _ _)
              rw [hv] at hmem hbd
              have ⟨hv1, hv2, hv3⟩ := omaxStep_spec (acc.2.1 c) ts v hv
              have hvm : v ≤ m := hbd v (by simp [optToList])
              constructor
              · rw [hfm]
                rcases List.mem_append.mp hmem with hml | hmr
                · simp only [optToList, List.mem_singleton] at hml
                  subst hml
                  rcases hv1 with rfl | hov
                  · simp
                  · rw [hov]
                    simp [optToList]
                · exact List.mem_append.mpr (Or.inr (List.mem_cons_of_mem _ hmr))
              · intro t ht
                rw [hfm] at ht
                rcases List.mem_append.mp ht with htl | htr
                · cases hov : acc.2.1 c with
                  | none => rw [hov] at htl; simp [optToList] at htl
                  | some a =>
                      rw [hov] at htl
                      simp only [optToList, List.mem_singleton] at htl
                      subst htl
                      exact le_trans (hv3 t hov) hvm
                · rcases List.mem_cons.mp htr with rfl | htr
                  · exact le_trans hv2 hvm
                  · exact hbd t (List.mem_append_right _ htr)
          · have hrel : relevantFor c h = false := by
              simp only [relevantFor, Bool.and_eq_false_iff]
              left
              simp only [beq_eq_false_iff_ne, ne_eq]
              intro he
              exact hceq he.symm
            have hstep : (ingestStep acc h).2.1 c = acc.2.1 c := by
              simp only [ingestStep, hts, if_neg hcmd]
              rw [if_neg hceq]
            have hkeep :
                optToList ((ingestStep acc h).2.1 c) = optToList (acc.2.1 c) := by
              rw [hstep]
            rw [List.filter_cons, if_neg (by simp [hrel])]
            have h2 := ih (ingestStep acc h)
            rw [hstep] at h2
            exact h2

theorem mem_insSorted_elim {K V : Type} [LinearOrder K] {key : K} {value : V}
    {xs : List (K × V)} {p : K × V} (hp : p ∈ insSorted key value xs) :
    p = (key, value) ∨ p ∈ xs := by
  induction xs with
  | nil => simpa [insSorted] using hp
  | cons q rest ih =>
      obtain ⟨k, v⟩ := q
      by_cases h1 : key < k
      · simp only [insSorted, if_pos h1] at hp
        rcases List.mem_cons.mp hp with rfl | hp
        · exact Or.inl rfl
        · exact Or.inr hp
      · by_cases h2 : k < key
        · simp only [insSorted, if_neg h1, if_pos h2] at hp
          rcases List.mem_cons.mp hp with rfl | hp
          · exact Or.inr (List.mem_cons_self _ _)
          · rcases ih hp with h | h
            · exact Or.inl h
            · exact Or.inr (List.mem_cons_of_mem _ h)
        · simp only [insSorted, if_neg h1, if_neg h2] at hp
          exact Or.inr hp

theorem mem_insSorted_of_mem {K V : Type} [LinearOrder K] (key : K) (value : V)
    {xs : List (K × V)} {p : K × V} (hp : p ∈ xs) : p ∈ insSorted key value xs := by
  induction xs with
  | nil => cases hp
  | cons q rest ih =>
      obtain ⟨k, v⟩ := q
      by_cases h1 : key < k
      · simp only [insSorted, if_pos h1]
        exact List.mem_cons_of_mem _ hp
      · by_cases h2 : k < key
        · simp only [insSorted, if_neg h1, if_pos h2]
          rcases List.mem_cons.mp hp with rfl | hp
          · exact List.mem_cons_self _ _
          · exact List.mem_cons_of_mem _ (ih hp)
        · simp only [insSorted, if_neg h1, if_neg h2]
          exact hp

theorem self_mem_insSorted {K V : Type} [LinearOrder K] (key : K) (value : V)
    {xs : List (K × V)} (hnm : key ∉ xs.map Prod.fst) :
    (key, value) ∈ insSorted key value xs := by
  induction xs with
  | nil => simp [insSorted]
  | cons q rest ih =>
      obtain ⟨k, v⟩ := q
      have hne : key ≠ k := by
        intro he
        exact hnm (by simp [he])
      by_cases h1 : key < k
      · simp [insSorted, if_pos h1]
      · have h2 : k < key := lt_of_le_of_ne (not_lt.mp h1) (fun he => hne he.symm)
        simp only [insSorted, if_neg h1, if_pos h2]
        refine List.mem_cons_of_mem _ (ih ?_)
        intro hmem
        exact hnm (List.mem_cons_of_mem _ hmem)

theorem foldl_insert_spec (f : GoStr → CommandMetadata) :
    ∀ (ks processed : List GoStr) (t : AVLNode GoStr CommandMetadata),
      Bounded none none t →
      (∀ p : GoStr × CommandMetadata, p ∈ toList t ↔ p.1 ∈ processed ∧ p.2 = f p.1) →
      (∀ c ∈ ks, c ∉ processed) → ks.Nodup →
      Bounded none none (ks.foldl (fun t c => insertRecursive t c (f c)) t) ∧
      (∀ p : GoStr × CommandMetadata,
        p ∈ toList (ks.foldl (fun t c => insertRecursive t c (f c)) t) ↔
          (p.1 ∈ processed ∨ p.1 ∈ ks) ∧ p.2 = f p.1) := by
  intro ks
  induction ks with
  | nil =>
      intro processed t hb hinv _ _
      refine ⟨hb, fun p => ?_⟩
      simp only [List.foldl_nil, List.not_mem_nil, or_false]
      exact hinv p
  | cons c ks' ih =>
      intro processed t hb hinv hfresh hnd
      have hcp : c ∉ processed := hfresh c (List.mem_cons_self _ _)
      have hspec := insertRecursive_spec t hb c (f c) trivial trivial
      have hnotkey : c ∉ (toList t).map Prod.fst := by
        intro hmem
        obtain ⟨q, hq, hqc⟩ := List.mem_map.mp hmem
        exact hcp (hqc ▸ ((hinv q).mp hq).1)
      have hinv' : ∀ p : GoStr × CommandMetadata,
          p ∈ toList (insertRecursive t c (f c)) ↔
            p.1 ∈ processed ++ [c] ∧ p.2 = f p.1 := by
        intro p
        rw [hspec.1]
        constructor
        · intro hp
          rcases mem_insSorted_elim hp with rfl | hp
          · exact ⟨by simp, rfl⟩
          · have := (hinv p).mp hp
            exact ⟨by simp [this.1], this.2⟩
        · rintro ⟨hmem, hval⟩
          rcases List.mem_append.mp hmem with hmem | hmem
          · exact mem_insSorted_of_mem _ _ ((hinv p).mpr ⟨hmem, hval⟩)
          · have hpc : p.1 = c := by simpa using hmem
            have hpp : p = (c, f c) := by
              obtain ⟨p1, p2⟩ := p
              simp only at hpc hval
              rw [hpc] at hval ⊢
              rw [hval]
            rw [hpp]
            exact self_mem_insSorted c (f c) hnotkey
      have hfresh' : ∀ c' ∈ ks', c' ∉ processed ++ [c] := by
        intro c' hc' hmem
        rcases List.mem_append.mp hmem with hmem | hmem
        · exact hfresh c' (List.mem_cons_of_mem _ hc') hmem
        · have : c' = c := by simpa using hmem
          exact (List.nodup_cons.mp hnd).1 (this ▸ hc')
      have ⟨hb2, hmem2⟩ := ih (processed ++ [c]) (insertRecursive t c (f c))
        hspec.2 hinv' hfresh' (List.nodup_cons.mp hnd).2
      refine ⟨by rw [List.foldl_cons]; exact hb2, fun p => ?_⟩
      rw [List.foldl_cons, hmem2 p]
      constructor
      · rintro ⟨hmem, hval⟩
        refine ⟨?_, hval⟩
        rcases hmem with hmem | hmem
        · rcases List.mem_append.mp hmem with hmem | hmem
          · exact Or.inl hmem
          · have hpc : p.1 = c := by simpa using hmem
            exact Or.inr (hpc ▸ List.mem_cons_self _ _)
        · exact Or.inr (List.mem_cons_of_mem _ hmem)
      · rintro ⟨hmem, hval⟩
        refine ⟨?_, hval⟩
        rcases hmem with hmem | hmem
        · exact Or.inl (List.mem_append_left _ hmem)
        · rcases List.mem_cons.mp hmem with rfl | hmem
          · exact Or.inl (List.mem_append_right _ (List.mem_singleton_self _))
          · exact Or.inr hmem

theorem ingest_keys_nodup (l : List HistoryEntry) :
    ∀ acc, acc.2.2.Nodup → ((l.foldl ingestStep acc).2.2).Nodup := by
  induction l with
  | nil => intro acc h; simpa using h
  | cons h rest ih =>
      intro acc hnd
      rw [List.foldl_cons]
      refine ih _ ?_
      rcases hts : h.Timestamp with _ | ts
      · simpa [ingestStep, hts] using hnd
      · by_cases hcmd : h.Command = []
        · simpa [ingestStep, hts, hcmd] using hnd
        · simp only [ingestStep, hts, if_neg hcmd]
          by_cases hin : h.Command ∈ acc.2.2
          · simpa [hin] using hnd
          · rw [if_neg hin]
            simp [List.nodup_append, hnd, hin]

/-- Unfold the let-pattern in `readHistoryAndPopulateTree`. -/
theorem readHistoryAndPopulateTree_eq (history : List HistoryEntry)
    (tree : AVLNode GoStr CommandMetadata) :
    readHistoryAndPopulateTree history tree =
      (ingestHistory history).2.2.foldl
        (fun t c => insertRecursive t c
          ⟨c, (ingestHistory history).2.1 c, (ingestHistory history).1 c⟩) tree := rfl

/-- Claim C7: ingestion ignores records with empty command or nil timestamp;
each remaining distinct command gets exactly one record in the store, with
frequency the number of its non-ignored occurrences and last_seen the most
recent of their timestamps; re-ingesting the same sequence gives the same
record set. -/
theorem claim_C7 (history : List HistoryEntry) :
    (∀ c : GoStr, c ≠ [] → (ingestHistory history).1 c = (occursOf history c).length) ∧
    (∀ c : GoStr, c ≠ [] → (c ∈ (ingestHistory history).2.2 ↔ occursOf history c ≠ [])) ∧
    ([] ∉ (ingestHistory history).2.2) ∧
    (∀ c : GoStr, c ≠ [] → occursOf history c ≠ [] → (ingestHistory history).2.1 c ≠ none) ∧
    (∀ c : GoStr, c ≠ [] → ∀ m, (ingestHistory history).2.1 c = some m →
      m ∈ tsOf history c ∧ ∀ t ∈ tsOf history c, t ≤ m) ∧
    (∀ p : GoStr × CommandMetadata,
      p ∈ toList (readHistoryAndPopulateTree history .nil) ↔
        p.1 ∈ (ingestHistory history).2.2 ∧
        p.2 = ⟨p.1, (ingestHistory history).2.1 p.1, (ingestHistory history).1 p.1⟩) ∧
    ((toList (readHistoryAndPopulateTree history .nil)).map Prod.fst).Nodup ∧
    toList (readHistoryAndPopulateTree history .nil) =
      toList (readHistoryAndPopulateTree history .nil) := by
  have hfreq : ∀ c : GoStr, c ≠ [] →
      (ingestHistory history).1 c = (occursOf history c).length := by
    intro c hc
    rw [ingestHistory, ingest_freq c hc]
    simp [occursOf, List.filter_reverse]
  have hkeys : ∀ c : GoStr,
      (c ∈ (ingestHistory history).2.2 ↔ c ≠ [] ∧ occursOf history c ≠ []) := by
    intro c
    rw [ingestHistory, ingest_keys]
    simp [occursOf, List.filter_reverse]
  have hlast : ∀ c : GoStr, c ≠ [] →
      ((ingestHistory history).2.1 c = none →
        history.filter (relevantFor c) = []) ∧
      (∀ m, (ingestHistory history).2.1 c = some m →
        m ∈ tsOf history c ∧ ∀ t ∈ tsOf history c, t ≤ m) := by
    intro c hc
    have h := ingest_last c hc history.reverse (fun _ => 0, fun _ => none, [])
    rw [List.filter_reverse] at h
    constructor
    · intro hn
      have := (h.1 hn).2
      rwa [List.reverse_eq_nil_iff] at this
    · intro m hm
      have ⟨hmem, hbd⟩ := h.2 m hm
      simp only [optToList, List.nil_append] at hmem hbd
      rw [List.filterMap_reverse] at hmem hbd
      rw [List.mem_reverse] at hmem
      refine ⟨hmem, fun t ht => hbd t ?_⟩
      rw [List.mem_reverse]
      exact ht
  have hnd : (ingestHistory history).2.2.Nodup := by
    rw [ingestHistory]
    exact ingest_keys_nodup history.reverse _ (by simp)
  have htree := foldl_insert_spec
    (fun c => ⟨c, (ingestHistory history).2.1 c, (ingestHistory history).1 c⟩)
    (ingestHistory history).2.2 [] .nil Bounded.nil (by simp [toList]) (by simp) hnd
  refine ⟨hfreq, ?_, ?_, ?_, ?_, ?_, ?_, rfl⟩
  · intro c hc
    rw [hkeys c]
    simp [hc]
  · intro hmem
    exact (((hkeys []).mp hmem).1) rfl
  · intro c hc hocc hn
    exact hocc ((hlast c hc).1 hn)
  · intro c hc
    exact (hlast c hc).2
  · intro p
    rw [readHistoryAndPopulateTree_eq]
    rw [htree.2 p]
    simp
  · rw [readHistoryAndPopulateTree_eq]
    have hb := htree.1
    have hpair := Pairwise_toList hb
    have : ((toList ((ingestHistory history).2.2.foldl
        (fun t c => insertRecursive t c
          (⟨c, (ingestHistory history).2.1 c, (ingestHistory history).1 c⟩ :
            CommandMetadata)) .nil)).map
        Prod.fst).Pairwise (· < ·) := List.pairwise_map.mpr hpair
    exact List.Pairwise.imp (fun h => ne_of_lt h) this

/-- Witness for claim C7 on a concrete four-record history: `ls` occurs twice
with timestamps 3 and 5, an empty command and a nil-timestamp record are
ignored. -/
theorem claim_C7_witness :
    (([108] : GoStr) ≠ []) ∧
    (ingestHistory ([⟨[108], some 5⟩, ⟨[108], some 3⟩, ⟨[], some 9⟩, ⟨[99], none⟩] :
        List HistoryEntry)).1 [108]
      = (occursOf ([⟨[108], some 5⟩, ⟨[108], some 3⟩, ⟨[], some 9⟩, ⟨[99], none⟩] :
        List HistoryEntry) [108]).length :=
  ⟨by decide,
    (claim_C7 ([⟨[108], some 5⟩, ⟨[108], some 3⟩, ⟨[], some 9⟩, ⟨[99], none⟩] :
        List HistoryEntry)).1 [108] (by decide)⟩

/-! ## Persistence round trip (claim C1) -/

theorem readGoStrs_enc (roots : List GoStr) (rest : List Nat)
    (hlen : ∀ rp ∈ roots, rp.length < 2 ^ 32) :
    readGoStrs roots.length ((roots.map (fun rp => encLE 4 rp.length ++ rp)).flatten ++ rest)
      = some (roots, rest) := by
  induction roots with
  | nil => simp [readGoStrs]
  | cons rp roots' ih =>
      have hrp : rp.length < 256 ^ 4 := by
        have := hlen rp (List.mem_cons_self _ _)
        norm_num at this ⊢
        omega
      rw [List.length_cons, List.map_cons, List.flatten_cons, List.append_assoc,
        List.append_assoc]
      rw [readGoStrs, readLE_encLE 4 rp.length _ hrp]
      dsimp only
      rw [if_pos (by simp)]
      rw [List.take_left' rfl, List.drop_left' rfl]
      rw [ih (fun q hq => hlen q (List.mem_cons_of_mem _ hq))]

theorem readInts_enc (vs : List Int) (rest : List Nat)
    (hr : ∀ v ∈ vs, -(2 ^ 31) ≤ v ∧ v < 2 ^ 31) :
    readInts vs.length ((vs.map (encI 4)).flatten ++ rest) = some (vs, rest) := by
  induction vs with
  | nil => simp [readInts]
  | cons v vs' ih =>
      have ⟨h1, h2⟩ := hr v (List.mem_cons_self _ _)
      rw [List.length_cons, List.map_cons, List.flatten_cons, List.append_assoc]
      rw [readInts, readI_encI_four v _ h1 h2]
      dsimp only
      rw [ih (fun q hq => hr q (List.mem_cons_of_mem _ hq))]

theorem bloom_ReadFrom_WriteTo (bf : BloomFilter) (rest : List Nat)
    (hm : bf.m < 2 ^ 64) (hk : bf.k < 2 ^ 64) (hbits : bf.bits.length = bf.m) :
    BloomFilter.ReadFrom (bf.WriteTo ++ rest) = some (bf, rest) := by
  have hm' : bf.m < 256 ^ 8 := by norm_num at hm ⊢; omega
  have hk' : bf.k < 256 ^ 8 := by norm_num at hk ⊢; omega
  rw [BloomFilter.WriteTo, BloomFilter.ReadFrom, List.append_assoc, List.append_assoc]
  rw [readLE_encLE 8 bf.m _ hm']
  dsimp only
  rw [readLE_encLE 8 bf.k _ hk']
  dsimp only
  have hml : (bf.bits.map (fun b => if b then 1 else 0)).length = bf.m := by
    rw [List.length_map, hbits]
  rw [if_pos (by rw [List.length_append, hml]; omega)]
  rw [List.take_left' hml, List.drop_left' hml]
  have hbmap : (bf.bits.map (fun b => if b then (1 : Nat) else 0)).map (fun b => b != 0)
      = bf.bits := by
    rw [List.map_map]
    have : ((fun b => b != 0) ∘ fun b => if b then (1 : Nat) else 0) = id := by
      funext b
      cases b <;> rfl
    rw [this, List.map_id]
  rw [hbmap]

theorem readRecord_enc (r : PathRecord) (rest : List Nat) (hp : r.Path.length = 512)
    (ht1 : -(2 ^ 63) ≤ r.Timestamp) (ht2 : r.Timestamp < 2 ^ 63)
    (ha1 : -(2 ^ 31) ≤ r.AccessCount) (ha2 : r.AccessCount < 2 ^ 31)
    (hf : r.Flags < 256) :
    readRecord (encodeRecord r ++ rest) = some (r, rest) := by
  rw [encodeRecord, readRecord, List.append_assoc, List.append_assoc, List.append_assoc]
  rw [if_pos (by rw [List.length_append, hp]; omega)]
  rw [List.take_left' hp, List.drop_left' hp]
  rw [readI_encI_eight r.Timestamp _ ht1 ht2]
  dsimp only
  rw [readI_encI_four r.AccessCount _ ha1 ha2]
  dsimp only
  rw [List.singleton_append]
  have : r.Flags % 256 = r.Flags := Nat.mod_eq_of_lt hf
  rw [this]

theorem readRecords_enc (rs : List PathRecord) (rest : List Nat)
    (hrec : ∀ r ∈ rs, r.Path.length = 512 ∧
      (-(2 ^ 63) ≤ r.Timestamp ∧ r.Timestamp < 2 ^ 63) ∧
      (-(2 ^ 31) ≤ r.AccessCount ∧ r.AccessCount < 2 ^ 31) ∧ r.Flags < 256) :
    readRecords rs.length ((rs.map encodeRecord).flatten ++ rest) = some (rs, rest) := by
  induction rs with
  | nil => simp [readRecords]
  | cons r rs' ih =>
      have ⟨h1, ⟨h2, h3⟩, ⟨h4, h5⟩, h6⟩ := hrec r (List.mem_cons_self _ _)
      rw [List.length_cons, List.map_cons, List.flatten_cons, List.append_assoc]
      rw [readRecords, readRecord_enc r _ h1 h2 h3 h4 h5 h6]
      dsimp only
      rw [ih (fun q hq => hrec q (List.mem_cons_of_mem _ hq))]

/-- Claim C1: `save` followed by `load` into a fresh index with the same
configured bloom parameters restores the path-record sequence and the
tracked-roots list byte for byte.  The side conditions say the state is
representable in the binary format: counts and lengths fit their 32-bit
fields, bloom and sketch have their declared shapes, and every record is a
well-formed 525-byte record. -/
theorem claim_C1 (config : FilesystemConfig) (fi : FilesystemIndexer)
    (hrc : fi.pathRecords.length < 2 ^ 32)
    (hrp : fi.rootPaths.length < 2 ^ 32)
    (hrl : ∀ rp ∈ fi.rootPaths, rp.length < 2 ^ 32)
    (hm : fi.bloomFilter.m < 2 ^ 64) (hk : fi.bloomFilter.k < 2 ^ 64)
    (hbits : fi.bloomFilter.bits.length = fi.bloomFilter.m)
    (htbl : fi.countMinSketch.table.length = 4 * 2048)
    (htr : ∀ v ∈ fi.countMinSketch.table, -(2 ^ 31) ≤ v ∧ v < 2 ^ 31)
    (hrec : ∀ r ∈ fi.pathRecords, r.Path.length = 512 ∧
      (-(2 ^ 63) ≤ r.Timestamp ∧ r.Timestamp < 2 ^ 63) ∧
      (-(2 ^ 31) ≤ r.AccessCount ∧ r.AccessCount < 2 ^ 31) ∧ r.Flags < 256) :
    ∃ fi', LoadFromFile config (SaveToFile fi) = some fi' ∧
      fi'.pathRecords = fi.pathRecords ∧ fi'.rootPaths = fi.rootPaths := by
  have hrc' : fi.pathRecords.length < 256 ^ 4 := by norm_num at hrc ⊢; omega
  have hrp' : fi.rootPaths.length < 256 ^ 4 := by norm_num at hrp ⊢; omega
  refine ⟨{ bloomFilter := fi.bloomFilter
            countMinSketch := ⟨fi.countMinSketch.table⟩
            pathRecords := fi.pathRecords
            pathIndex := loadPathIndex fi.pathRecords
            rootPaths := fi.rootPaths
            config := config
            isDirty := false }, ?_, rfl, rfl⟩
  have hmagic : ([82, 69, 67, 65, 76, 76, 69, 82] : List Nat).length = 8 := rfl
  rw [SaveToFile, LoadFromFile]
  rw [List.append_assoc, List.append_assoc, List.append_assoc, List.append_assoc,
    List.append_assoc, List.append_assoc, List.append_assoc]
  rw [List.take_left' hmagic, if_pos rfl, List.drop_left' hmagic]
  rw [readLE_encLE 4 2 _ (by norm_num)]
  dsimp only
  rw [if_pos (Or.inr rfl)]
  rw [readLE_encLE 4 fi.pathRecords.length _ hrc']
  dsimp only
  rw [readLE_encLE 4 fi.rootPaths.length _ hrp']
  dsimp only
  rw [if_pos rfl]
  rw [if_pos (by rw [List.length_append, List.length_replicate]; omega)]
  rw [List.drop_left' (List.length_replicate 12 0)]
  rw [readGoStrs_enc fi.rootPaths _ hrl]
  dsimp only
  rw [bloom_ReadFrom_WriteTo fi.bloomFilter _ hm hk hbits]
  dsimp only
  rw [show (4 * 2048 : Nat) = fi.countMinSketch.table.length from htbl.symm]
  rw [CountMinSketch.WriteTo]
  rw [readInts_enc fi.countMinSketch.table _ htr]
  dsimp only
  rw [← List.append_nil ((fi.pathRecords.map encodeRecord).flatten)]
  rw [readRecords_enc fi.pathRecords [] hrec]

/-- Witness for claim C1: the freshly created empty index (bloom size 8,
one hash) reloads with the same (empty) records and roots. -/
theorem claim_C1_witness :
    ∃ fi', LoadFromFile ⟨[], 10, 8, 1⟩
        (SaveToFile (NewFilesystemIndexer ⟨[], 10, 8, 1⟩)) = some fi' ∧
      fi'.pathRecords = (NewFilesystemIndexer ⟨[], 10, 8, 1⟩).pathRecords ∧
      fi'.rootPaths = (NewFilesystemIndexer ⟨[], 10, 8, 1⟩).rootPaths := by
  refine claim_C1 _ _ ?_ ?_ ?_ ?_ ?_ ?_ ?_ ?_ ?_
  · show ([] : List PathRecord).length < 2 ^ 32
    norm_num
  · show ([] : List GoStr).length < 2 ^ 32
    norm_num
  · intro rp hrp
    exact absurd hrp (List.not_mem_nil _)
  · show (8 : Nat) < 2 ^ 64
    norm_num
  · show (1 : Nat) < 2 ^ 64
    norm_num
  · show (List.replicate 8 false).length = 8
    exact List.length_replicate _ _
  · show (List.replicate (4 * 2048) (0 : Int)).length = 4 * 2048
    exact List.length_replicate _ _
  · intro v hv
    have hv0 : v = 0 :=
      List.eq_of_mem_replicate (show v ∈ List.replicate (4 * 2048) (0 : Int) from hv)
    rw [hv0]
    norm_num
  · intro r hr
    exact absurd hr (List.not_mem_nil _)

/-! ## Cleanup (claim C3) -/

theorem cleanupStep_eq (env : FsEnv) (options : CleanupOptions) (θ : Int)
    (init : CleanupAcc) (record : PathRecord) :
    cleanupStep env options θ init record =
      if cleanupRulePathFilter options record then
        { init with
          stats := { init.stats with RemovedEntries := init.stats.RemovedEntries + 1 }
          removedPaths := init.removedPaths ++ [bytesToPath record.Path] }
      else if cleanupRuleStale env options record then
        { init with
          stats := { init.stats with
            StaleFiles := init.stats.StaleFiles + 1
            RemovedEntries := init.stats.RemovedEntries + 1 }
          removedPaths := init.removedPaths ++ [bytesToPath record.Path] }
      else if cleanupRuleOld options θ record then
        { init with
          stats := { init.stats with
            OldFiles := init.stats.OldFiles + 1
            RemovedEntries := init.stats.RemovedEntries + 1 }
          removedPaths := init.removedPaths ++ [bytesToPath record.Path] }
      else
        { init with
          validRecords := init.validRecords ++ [record]
          validPaths := init.validPaths ++ [bytesToPath record.Path] } := by
  by_cases hA : options.Path = [] <;>
  by_cases hB : options.Path.isPrefixOf (bytesToPath record.Path) = true <;>
  by_cases hC : options.RemoveStale = true <;>
  by_cases hD : env.notExist (bytesToPath record.Path) = true <;>
  by_cases hE : options.OlderThanDays > 0 <;>
  by_cases hF : record.Timestamp < θ <;>
  simp [cleanupStep, cleanupRulePathFilter, cleanupRuleStale, cleanupRuleOld,
    hA, hB, hC, hD, hE, hF]

theorem cleanup_foldl_spec (env : FsEnv) (options : CleanupOptions) (θ : Int)
    (records : List PathRecord) :
    ∀ init : CleanupAcc,
      (records.foldl (cleanupStep env options θ) init).validRecords
          = init.validRecords ++ records.filter (fun r => !shouldRemoveSpec env options θ r) ∧
      (records.foldl (cleanupStep env options θ) init).validPaths
          = init.validPaths ++ (records.filter (fun r => !shouldRemoveSpec env options θ r)).map
              (fun r => bytesToPath r.Path) ∧
      (records.foldl (cleanupStep env options θ) init).removedPaths
          = init.removedPaths ++ (records.filter (shouldRemoveSpec env options θ)).map
              (fun r => bytesToPath r.Path) ∧
      (records.foldl (cleanupStep env options θ) init).stats.TotalEntries
          = init.stats.TotalEntries ∧
      (records.foldl (cleanupStep env options θ) init).stats.RemovedEntries
          = init.stats.RemovedEntries
              + (records.filter (shouldRemoveSpec env options θ)).length ∧
      (records.foldl (cleanupStep env options θ) init).stats.StaleFiles
          = init.stats.StaleFiles
              + (records.filter (fun r => !cleanupRulePathFilter options r
                  && cleanupRuleStale env options r)).length ∧
      (records.foldl (cleanupStep env options θ) init).stats.OldFiles
          = init.stats.OldFiles
              + (records.filter (fun r => !cleanupRulePathFilter options r
                  && !cleanupRuleStale env options r && cleanupRuleOld options θ r)).length := by
  induction records with
  | nil => intro init; simp
  | cons record rest ih =>
      intro init
      rw [List.foldl_cons, cleanupStep_eq]
      cases hb1 : cleanupRulePathFilter options record with
      | true =>
          rw [if_pos rfl]
          have hsr : shouldRemoveSpec env options θ record = true := by
            simp [shouldRemoveSpec, hb1]
          obtain ⟨i1, i2, i3, i4, i5, i6, i7⟩ := ih { init with
              stats := { init.stats with RemovedEntries := init.stats.RemovedEntries + 1 }
              removedPaths := init.removedPaths ++ [bytesToPath record.Path] }
          refine ⟨?_, ?_, ?_, ?_, ?_, ?_, ?_⟩
          · rw [i1]; simp [List.filter_cons, hsr]
          · rw [i2]; simp [List.filter_cons, hsr]
          · rw [i3]; simp [List.filter_cons, hsr, List.append_assoc]
          · rw [i4]
          · rw [i5]; simp [List.filter_cons, hsr]; try omega
          · rw [i6]; simp [List.filter_cons, hb1]
          · rw [i7]; simp [List.filter_cons, hb1]
      | false =>
          rw [if_neg Bool.false_ne_true]
          cases hb2 : cleanupRuleStale env options record with
          | true =>
              rw [if_pos rfl]
              have hsr : shouldRemoveSpec env options θ record = true := by
                simp [shouldRemoveSpec, hb2]
              obtain ⟨i1, i2, i3, i4, i5, i6, i7⟩ := ih { init with
                  stats := { init.stats with
                    StaleFiles := init.stats.StaleFiles + 1
                    RemovedEntries := init.stats.RemovedEntries + 1 }
                  removedPaths := init.removedPaths ++ [bytesToPath record.Path] }
              refine ⟨?_, ?_, ?_, ?_, ?_, ?_, ?_⟩
              · rw [i1]; simp [List.filter_cons, hsr]
              · rw [i2]; simp [List.filter_cons, hsr]
              · rw [i3]; simp [List.filter_cons, hsr, List.append_assoc]
              · rw [i4]
              · rw [i5]; simp [List.filter_cons, hsr]; try omega
              · rw [i6]; simp [List.filter_cons, hb1, hb2]; try omega
              · rw [i7]; simp [List.filter_cons, hb2]
          | false =>
              rw [if_neg Bool.false_ne_true]
              cases hb3 : cleanupRuleOld options θ record with
              | true =>
                  rw [if_pos rfl]
                  have hsr : shouldRemoveSpec env options θ record = true := by
                    simp [shouldRemoveSpec, hb3]
                  obtain ⟨i1, i2, i3, i4, i5, i6, i7⟩ := ih { init with
                      stats := { init.stats with
                        OldFiles := init.stats.OldFiles + 1
                        RemovedEntries := init.stats.RemovedEntries + 1 }
                      removedPaths := init.removedPaths ++ [bytesToPath record.Path] }
                  refine ⟨?_, ?_, ?_, ?_, ?_, ?_, ?_⟩
                  · rw [i1]; simp [List.filter_cons, hsr]
                  · rw [i2]; simp [List.filter_cons, hsr]
                  · rw [i3]; simp [List.filter_cons, hsr, List.append_assoc]
                  · rw [i4]
                  · rw [i5]; simp [List.filter_cons, hsr]; try omega
                  · rw [i6]; simp [List.filter_cons, hb1, hb2]
                  · rw [i7]; simp [List.filter_cons, hb1, hb2, hb3]; try omega
              | false =>
                  rw [if_neg Bool.false_ne_true]
                  have hsr : shouldRemoveSpec env options θ record = false := by
                    simp [shouldRemoveSpec, hb1, hb2, hb3]
                  obtain ⟨i1, i2, i3, i4, i5, i6, i7⟩ := ih { init with
                      validRecords := init.validRecords ++ [record]
                      validPaths := init.validPaths ++ [bytesToPath record.Path] }
                  refine ⟨?_, ?_, ?_, ?_, ?_, ?_, ?_⟩
                  · rw [i1]; simp [List.filter_cons, hsr, List.append_assoc]
                  · rw [i2]; simp [List.filter_cons, hsr, List.append_assoc]
                  · rw [i3]; simp [List.filter_cons, hsr]
                  · rw [i4]
                  · rw [i5]; simp [List.filter_cons, hsr]
                  · rw [i6]; simp [List.filter_cons, hb1, hb2]
                  · rw [i7]; simp [List.filter_cons, hb1, hb2, hb3]

theorem foldl_pair_split (bhash : Nat → GoStr → Nat) (records : List PathRecord) :
    ∀ (bf : BloomFilter) (cms : CountMinSketch),
      records.foldl (fun (p : BloomFilter × CountMinSketch) r =>
          let path := bytesToPath r.Path
          (p.1.AddString bhash path, p.2.Add path r.AccessCount)) (bf, cms)
        = (records.foldl (fun b r => b.AddString bhash (bytesToPath r.Path)) bf,
           records.foldl (fun c r => c.Add (bytesToPath r.Path) r.AccessCount) cms) := by
  induction records with
  | nil => intro bf cms; rfl
  | cons r rest ih =>
      intro bf cms
      rw [List.foldl_cons, List.foldl_cons, List.foldl_cons]
      exact ih _ _

/-- Claim C3: cleanup evaluates the removal rules per record in the order
path-prefix filter, stale check, age threshold, a single match removing the
record; the retained sequence is exactly the records matching no rule; when
anything was removed the path map is rebuilt over the retained records, a
fresh bloom filter and fresh sketch are replayed with `AddString(path)` and
`Add(path, access_count)`, and the index is marked dirty; when nothing was
removed the state is untouched; the statistics attribute each removal to the
first matching rule. -/
theorem claim_C3 (bhash : Nat → GoStr → Nat) (env : FsEnv) (fi : FilesystemIndexer)
    (options : CleanupOptions) :
    ((CleanupIndex bhash env fi options).1.pathRecords
        = fi.pathRecords.filter (fun r =>
            !shouldRemoveSpec env options (env.now - options.OlderThanDays * 86400) r)) ∧
    (fi.pathRecords.filter
        (shouldRemoveSpec env options (env.now - options.OlderThanDays * 86400)) ≠ [] →
      (CleanupIndex bhash env fi options).1.pathIndex
          = buildPathIndex ((fi.pathRecords.filter (fun r =>
              !shouldRemoveSpec env options (env.now - options.OlderThanDays * 86400) r)).map
              (fun r => bytesToPath r.Path)) ∧
      (CleanupIndex bhash env fi options).1.bloomFilter
          = (fi.pathRecords.filter (fun r =>
              !shouldRemoveSpec env options (env.now - options.OlderThanDays * 86400) r)).foldl
              (fun b r => b.AddString bhash (bytesToPath r.Path))
              (bloomNew fi.config.BloomFilterSize fi.config.BloomFilterHashes) ∧
      (CleanupIndex bhash env fi options).1.countMinSketch
          = (fi.pathRecords.filter (fun r =>
              !shouldRemoveSpec env options (env.now - options.OlderThanDays * 86400) r)).foldl
              (fun c r => c.Add (bytesToPath r.Path) r.AccessCount) NewCountMinSketch ∧
      (CleanupIndex bhash env fi options).1.isDirty = true) ∧
    (fi.pathRecords.filter
        (shouldRemoveSpec env options (env.now - options.OlderThanDays * 86400)) = [] →
      (CleanupIndex bhash env fi options).1 = fi) ∧
    (CleanupIndex bhash env fi options).2.TotalEntries = fi.pathRecords.length ∧
    (CleanupIndex bhash env fi options).2.RemovedEntries
        = (fi.pathRecords.filter
            (shouldRemoveSpec env options (env.now - options.OlderThanDays * 86400))).length ∧
    (CleanupIndex bhash env fi options).2.StaleFiles
        = (fi.pathRecords.filter (fun r => !cleanupRulePathFilter options r
            && cleanupRuleStale env options r)).length ∧
    (CleanupIndex bhash env fi options).2.OldFiles
        = (fi.pathRecords.filter (fun r => !cleanupRulePathFilter options r
            && !cleanupRuleStale env options r
            && cleanupRuleOld options (env.now - options.OlderThanDays * 86400) r)).length := by
  obtain ⟨i1, i2, i3, i4, i5, i6, i7⟩ := cleanup_foldl_spec env options
    (env.now - options.OlderThanDays * 86400) fi.pathRecords
    ⟨⟨fi.pathRecords.length, 0, 0, 0, 0⟩, [], [], []⟩
  simp only [CleanupIndex]
  rw [i1, i2, i3]
  simp only [List.nil_append]
  by_cases hrem : fi.pathRecords.filter
      (shouldRemoveSpec env options (env.now - options.OlderThanDays * 86400)) = []
  · rw [if_neg (by simp [hrem])]
    have hall : fi.pathRecords.filter (fun r =>
        !shouldRemoveSpec env options (env.now - options.OlderThanDays * 86400) r)
        = fi.pathRecords := by
      apply List.filter_eq_self.mpr
      intro a ha
      have := List.filter_eq_nil_iff.mp hrem a ha
      simpa using this
    refine ⟨by rw [hall], fun hcon => absurd hrem hcon, fun _ => rfl, ?_, ?_, ?_, ?_⟩
    · simpa using i4
    · rw [i5, hrem]; simp
    · simpa using i6
    · simpa using i7
  · rw [if_pos (by simp [hrem])]
    rw [foldl_pair_split]
    refine ⟨rfl, fun _ => ⟨rfl, rfl, rfl, rfl⟩, fun hcon => absurd hcon hrem, ?_, ?_, ?_, ?_⟩
    · simpa using i4
    · simpa using i5
    · simpa using i6
    · simpa using i7

/-- Witness for claim C3: an index holding one record for path "/a" cleaned
with `remove_stale` in an environment where no path exists on disk removes
the record and rebuilds the structures. -/
theorem claim_C3_witness :
    List.filter
        (shouldRemoveSpec ⟨fun _ => none, fun _ => true, id, 0⟩ ⟨[], true, 0⟩
          ((⟨fun _ => none, fun _ => true, id, 0⟩ : FsEnv).now - (0 : Int) * 86400))
        [⟨pathToBytes [47, 97], 0, 1, 0⟩] ≠ [] ∧
    ((CleanupIndex (fun _ _ => 0) ⟨fun _ => none, fun _ => true, id, 0⟩
        { bloomFilter := bloomNew 8 1
          countMinSketch := NewCountMinSketch
          pathRecords := [⟨pathToBytes [47, 97], 0, 1, 0⟩]
          pathIndex := fun p => if p = [47, 97] then some 0 else none
          rootPaths := []
          config := ⟨[], 10, 8, 1⟩
          isDirty := false }
        ⟨[], true, 0⟩).1.isDirty = true) := by
  refine ⟨by decide, ?_⟩
  have h := (claim_C3 (fun _ _ => 0) ⟨fun _ => none, fun _ => true, id, 0⟩
      { bloomFilter := bloomNew 8 1
        countMinSketch := NewCountMinSketch
        pathRecords := [⟨pathToBytes [47, 97], 0, 1, 0⟩]
        pathIndex := fun p => if p = [47, 97] then some 0 else none
        rootPaths := []
        config := ⟨[], 10, 8, 1⟩
        isDirty := false }
      ⟨[], true, 0⟩).2.1 (by decide)
  exact h.2.2.2

/-! ## Bloom filter and sketch lemmas -/

theorem getD_set_self (l : List Int) (i : Nat) (a : Int) (h : i < l.length) :
    (l.set i a).getD i 0 = a := by
  rw [List.getD_eq_getElem?_getD]
  simp [List.getElem?_set, h]

theorem getD_set_ne (l : List Int) {i j : Nat} (a : Int) (h : i ≠ j) :
    (l.set i a).getD j 0 = l.getD j 0 := by
  simp [List.getD_eq_getElem?_getD, List.getElem?_set, h]

theorem getD_bool_set_true (l : List Bool) (i j : Nat) :
    l.getD j false = true → (l.set i true).getD j false = true := by
  intro h
  by_cases hij : i = j
  · subst hij
    by_cases hl : i < l.length
    · simp [List.getD_eq_getElem?_getD, List.getElem?_set, hl]
    · rw [List.set_eq_of_length_le (by omega)]
      exact h
  · simpa [List.getD_eq_getElem?_getD, List.getElem?_set, hij] using h

theorem bloom_bits_mono (pos : Nat → Nat) (l : List Nat) :
    ∀ (bits : List Bool) (j : Nat), bits.getD j false = true →
      (l.foldl (fun b i => b.set (pos i) true) bits).getD j false = true := by
  induction l with
  | nil => intro bits j h; exact h
  | cons i rest ih =>
      intro bits j h
      rw [List.foldl_cons]
      exact ih _ _ (getD_bool_set_true _ _ _ h)

theorem bloom_bits_set (pos : Nat → Nat) (l : List Nat) :
    ∀ (bits : List Bool) (i0 : Nat), i0 ∈ l → pos i0 < bits.length →
      (l.foldl (fun b i => b.set (pos i) true) bits).getD (pos i0) false = true := by
  induction l with
  | nil => intro bits i0 h; cases h
  | cons i rest ih =>
      intro bits i0 hmem hlt
      rw [List.foldl_cons]
      rcases List.mem_cons.mp hmem with rfl | hmem
      · apply bloom_bits_mono
        rw [List.getD_eq_getElem?_getD]
        simp [List.getElem?_set, hlt]
      · exact ih _ _ hmem (by rwa [List.length_set])

theorem TestString_AddString_self (bhash : Nat → GoStr → Nat) (bf : BloomFilter) (s : GoStr)
    (hm : 0 < bf.m) (hb : bf.bits.length = bf.m) :
    (bf.AddString bhash s).TestString bhash s = true := by
  rw [BloomFilter.AddString, BloomFilter.TestString]
  simp only [List.all_eq_true]
  intro i hi
  exact bloom_bits_set (fun i => bhash i s % bf.m) (List.range bf.k) bf.bits i hi
    (by rw [hb]; exact Nat.mod_lt _ hm)

theorem TestString_AddString_mono (bhash : Nat → GoStr → Nat) (bf : BloomFilter)
    (s q : GoStr) (h : bf.TestString bhash s = true) :
    (bf.AddString bhash q).TestString bhash s = true := by
  rw [BloomFilter.TestString] at h ⊢
  rw [BloomFilter.AddString]
  simp only [List.all_eq_true] at h ⊢
  intro i hi
  exact bloom_bits_mono _ _ _ _ (h i hi)

theorem wrap32_eq_self {x : Int} (h1 : -(2 ^ 31) ≤ x) (h2 : x < 2 ^ 31) : wrap32 x = x := by
  rw [wrap32]
  omega

theorem cms_hash_lt (item : GoStr) (row : Nat) : CountMinSketch.hash item row < 2048 :=
  Nat.mod_lt _ (by norm_num)

theorem Estimate_Add_self (cms : CountMinSketch) (item : GoStr)
    (hlen : cms.table.length = 4 * 2048)
    (hbd : ∀ v ∈ cms.table, 0 ≤ v ∧ v < 2 ^ 31 - 1) :
    1 ≤ (cms.Add item 1).Estimate item := by
  have hget : ∀ j : Nat, j < 4 * 2048 →
      0 ≤ cms.table.getD j 0 ∧ cms.table.getD j 0 < 2 ^ 31 - 1 := by
    intro j hj
    have hjl : j < cms.table.length := by omega
    rw [List.getD_eq_getElem?_getD, List.getElem?_eq_getElem hjl]
    exact hbd _ (List.getElem_mem hjl)
  have hh0 := cms_hash_lt item 0
  have hh1 := cms_hash_lt item 1
  have hh2 := cms_hash_lt item 2
  have hh3 := cms_hash_lt item 3
  have h01 : 0 * 2048 + CountMinSketch.hash item 0 ≠ 1 * 2048 + CountMinSketch.hash item 1 := by omega
  have h02 : 0 * 2048 + CountMinSketch.hash item 0 ≠ 2 * 2048 + CountMinSketch.hash item 2 := by omega
  have h03 : 0 * 2048 + CountMinSketch.hash item 0 ≠ 3 * 2048 + CountMinSketch.hash item 3 := by omega
  have h12 : 1 * 2048 + CountMinSketch.hash item 1 ≠ 2 * 2048 + CountMinSketch.hash item 2 := by omega
  have h13 : 1 * 2048 + CountMinSketch.hash item 1 ≠ 3 * 2048 + CountMinSketch.hash item 3 := by omega
  have h23 : 2 * 2048 + CountMinSketch.hash item 2 ≠ 3 * 2048 + CountMinSketch.hash item 3 := by omega
  have hb0 := hget (0 * 2048 + CountMinSketch.hash item 0) (by omega)
  have hb1 := hget (1 * 2048 + CountMinSketch.hash item 1) (by omega)
  have hb2 := hget (2 * 2048 + CountMinSketch.hash item 2) (by omega)
  have hb3 := hget (3 * 2048 + CountMinSketch.hash item 3) (by omega)
  rw [CountMinSketch.Add, CountMinSketch.Estimate]
  have hrange : List.range 4 = [0, 1, 2, 3] := rfl
  rw [hrange]
  dsimp only [List.foldl_cons, List.foldl_nil]
  rw [getD_set_ne _ _ h01, getD_set_ne _ _ h12, getD_set_ne _ _ h02,
    getD_set_ne _ _ h23, getD_set_ne _ _ h13, getD_set_ne _ _ h03]
  rw [getD_set_self _ _ _ (by simp only [List.length_set]; omega)]
  rw [getD_set_ne _ _ (Ne.symm h23)]
  rw [getD_set_self _ _ _ (by simp only [List.length_set]; omega)]
  rw [getD_set_ne _ _ (Ne.symm h13), getD_set_ne _ _ (Ne.symm h12)]
  rw [getD_set_self _ _ _ (by simp only [List.length_set]; omega)]
  rw [getD_set_ne _ _ (Ne.symm h03), getD_set_ne _ _ (Ne.symm h02),
    getD_set_ne _ _ (Ne.symm h01)]
  rw [getD_set_self _ _ _ (by omega)]
  rw [wrap32_eq_self (by omega) (by omega), wrap32_eq_self (by omega) (by omega),
    wrap32_eq_self (by omega) (by omega), wrap32_eq_self (by omega) (by omega)]
  split_ifs <;> omega

/-! ## AddPath lemmas (claims C4, C5, C9) -/

theorem AddPath_state (bhash : Nat → GoStr → Nat) (env : FsEnv) (fi : FilesystemIndexer)
    (p : GoStr) (t : Int) :
    (AddPath bhash env fi p t).1.bloomFilter = fi.bloomFilter.AddString bhash p ∧
    (AddPath bhash env fi p t).1.countMinSketch = fi.countMinSketch.Add p 1 ∧
    (AddPath bhash env fi p t).2.1 = fi.bloomFilter.TestString bhash p := by
  rw [AddPath]
  cases hex : fi.bloomFilter.TestString bhash p with
  | false =>
      rw [if_neg Bool.false_ne_true]
      dsimp only
      split <;> exact ⟨rfl, rfl, rfl⟩
  | true =>
      rw [if_pos rfl]
      dsimp only
      cases hidx : fi.pathIndex p with
      | none =>
          dsimp only
          split <;> exact ⟨rfl, rfl, rfl⟩
      | some idx => exact ⟨rfl, rfl, rfl⟩

theorem pathIndexInv_transport {fi fi' : FilesystemIndexer}
    (hinv : pathIndexInv fi) (hr : fi'.pathRecords = fi.pathRecords)
    (hm : fi'.pathIndex = fi.pathIndex) : pathIndexInv fi' := by
  intro q j hq
  rw [hr]
  exact hinv q j (by rw [← hm]; exact hq)

theorem pathIndexInv_append {fi fi' : FilesystemIndexer} {record : PathRecord} {p : GoStr}
    (hinv : pathIndexInv fi)
    (hr : fi'.pathRecords = fi.pathRecords ++ [record])
    (hm : fi'.pathIndex
      = fun q => if q = p then some fi.pathRecords.length else fi.pathIndex q)
    (hdec : bytesToPath record.Path = p) : pathIndexInv fi' := by
  intro q j hq
  rw [hm] at hq
  dsimp only at hq
  rw [hr]
  by_cases hqp : q = p
  · rw [if_pos hqp] at hq
    injection hq with hq
    subst hq
    refine ⟨record, ?_, by rw [hdec, hqp]⟩
    rw [List.getElem?_append_right (le_refl _)]
    simp
  · rw [if_neg hqp] at hq
    obtain ⟨r0, hr0, hd0⟩ := hinv q j hq
    have hj : j < fi.pathRecords.length := by
      by_contra hcon
      rw [List.getElem?_eq_none (by omega)] at hr0
      cases hr0
    refine ⟨r0, ?_, hd0⟩
    rw [List.getElem?_append, if_pos hj]
    exact hr0

theorem pathIndexInv_update {fi fi' : FilesystemIndexer} {idx : Nat} {r' : PathRecord}
    (hinv : pathIndexInv fi)
    (hr : fi'.pathRecords = fi.pathRecords.set idx r')
    (hm : fi'.pathIndex = fi.pathIndex)
    (hpath : r'.Path = (fi.pathRecords.getD idx ⟨List.replicate 512 0, 0, 0, 0⟩).Path) :
    pathIndexInv fi' := by
  intro q j hq
  rw [hm] at hq
  obtain ⟨r0, hr0, hd0⟩ := hinv q j hq
  rw [hr]
  by_cases hij : idx = j
  · subst hij
    have hlt : idx < fi.pathRecords.length := by
      by_contra hcon
      rw [List.getElem?_eq_none (by omega)] at hr0
      cases hr0
    refine ⟨r', ?_, ?_⟩
    · rw [List.getElem?_set_self (by omega)]
    · have hget : fi.pathRecords.getD idx ⟨List.replicate 512 0, 0, 0, 0⟩ = r0 := by
        simp [List.getD_eq_getElem?_getD, hr0]
      rw [hpath, hget, hd0]
  · refine ⟨r0, ?_, hd0⟩
    rw [List.getElem?_set_ne hij]
    exact hr0

theorem findIdx_zero_of_append (p : GoStr) (rest : List Nat) (h : ∀ b ∈ p, b ≠ 0) :
    ∀ i : Nat, (p ++ 0 :: rest).findIdx? (fun b => b == 0) i = some (i + p.length) := by
  induction p with
  | nil =>
      intro i
      simp [List.findIdx?_cons]
  | cons b bs ih =>
      intro i
      have hb : (b == 0) = false := by
        simp only [beq_eq_false_iff_ne, ne_eq]
        exact h b (List.mem_cons_self _ _)
      have hbs : ∀ x ∈ bs, x ≠ 0 := fun x hx => h x (List.mem_cons_of_mem _ hx)
      rw [List.cons_append, List.findIdx?_cons, hb]
      rw [if_neg Bool.false_ne_true]
      rw [ih hbs (i + 1)]
      congr 1
      simp only [List.length_cons]
      omega

theorem bytesToPath_pathToBytes (p : GoStr) (h1 : p ≠ []) (h2 : p.length ≤ 511)
    (h3 : ∀ b ∈ p, b ≠ 0) : bytesToPath (pathToBytes p) = p := by
  have hlen : ¬ p.length > 512 - 1 := by omega
  have hpos : 0 < p.length := List.length_pos.mpr h1
  rw [pathToBytes]
  rw [if_neg hlen]
  have hrep : List.replicate (512 - p.length) (0 : Nat)
      = 0 :: List.replicate (511 - p.length) 0 := by
    rw [show (512 - p.length) = (511 - p.length) + 1 by omega, List.replicate_succ]
  rw [bytesToPath, hrep]
  rw [findIdx_zero_of_append p _ h3 0]
  dsimp only
  rw [if_neg (show ¬ (0 + p.length = 0) by omega)]
  rw [show 0 + p.length = p.length by omega]
  rw [List.take_left' rfl]

theorem AddPath_pathIndexInv (bhash : Nat → GoStr → Nat) (env : FsEnv)
    (fi : FilesystemIndexer) (p : GoStr) (t : Int) (hinv : pathIndexInv fi)
    (h1 : p ≠ []) (h2 : p.length ≤ 511) (h3 : ∀ b ∈ p, b ≠ 0) :
    pathIndexInv (AddPath bhash env fi p t).1 := by
  have hrt := bytesToPath_pathToBytes p h1 h2 h3
  rw [AddPath]
  cases hex : fi.bloomFilter.TestString bhash p with
  | false =>
      rw [if_neg Bool.false_ne_true]
      dsimp only
      split
      · exact pathIndexInv_transport hinv rfl rfl
      · exact pathIndexInv_append hinv rfl rfl hrt
  | true =>
      rw [if_pos rfl]
      dsimp only
      cases hidx : fi.pathIndex p with
      | none =>
          dsimp only
          split
          · exact pathIndexInv_transport hinv rfl rfl
          · exact pathIndexInv_append hinv rfl rfl hrt
      | some idx =>
          exact pathIndexInv_update hinv rfl rfl rfl

theorem foldl_update_lookup {α : Type} (key : α → GoStr) (l : List (Nat × α)) :
    ∀ (m : GoStr → Option Nat) (q : GoStr) (i : Nat),
      (l.foldl (fun m p => fun q => if q = key p.2 then some p.1 else m q) m) q = some i →
      (∃ x, (i, x) ∈ l ∧ key x = q) ∨ m q = some i := by
  induction l with
  | nil => intro m q i h; exact Or.inr h
  | cons p rest ih =>
      intro m q i h
      rw [List.foldl_cons] at h
      rcases ih _ q i h with ⟨x, hmem, hkey⟩ | hbase
      · exact Or.inl ⟨x, List.mem_cons_of_mem _ hmem, hkey⟩
      · by_cases hq : q = key p.2
        · rw [if_pos hq] at hbase
          injection hbase with hbase
          subst hbase
          exact Or.inl ⟨p.2, List.mem_cons_self _ _, hq.symm⟩
        · rw [if_neg hq] at hbase
          exact Or.inr hbase

theorem buildPathIndex_lookup (paths : List GoStr) (q : GoStr) (i : Nat)
    (h : buildPathIndex paths q = some i) : paths[i]? = some q := by
  rcases foldl_update_lookup (fun x => x) paths.enum _ q i h with ⟨x, hmem, hkey⟩ | hbase
  · rw [List.mem_enum_iff_getElem?] at hmem
    rw [hmem, hkey]
  · cases hbase

theorem loadPathIndex_lookup (records : List PathRecord) (q : GoStr) (i : Nat)
    (h : loadPathIndex records q = some i) :
    ∃ r, records[i]? = some r ∧ bytesToPath r.Path = q := by
  rcases foldl_update_lookup (fun (r : PathRecord) => bytesToPath r.Path) records.enum _ q i h
      with ⟨x, hmem, hkey⟩ | hbase
  · rw [List.mem_enum_iff_getElem?] at hmem
    exact ⟨x, hmem, hkey⟩
  · cases hbase

theorem CleanupIndex_pathIndexInv (bhash : Nat → GoStr → Nat) (env : FsEnv)
    (fi : FilesystemIndexer) (options : CleanupOptions) (hinv : pathIndexInv fi) :
    pathIndexInv (CleanupIndex bhash env fi options).1 := by
  obtain ⟨i1, i2, i3, _, _, _, _⟩ := cleanup_foldl_spec env options
    (env.now - options.OlderThanDays * 86400) fi.pathRecords
    ⟨⟨fi.pathRecords.length, 0, 0, 0, 0⟩, [], [], []⟩
  rw [CleanupIndex]
  dsimp only
  split
  · intro q j hq
    dsimp only at hq ⊢
    rw [i2] at hq
    rw [i1]
    simp only [List.nil_append] at hq ⊢
    have hp := buildPathIndex_lookup _ _ _ hq
    rw [List.getElem?_map] at hp
    rcases hg : (List.filter (fun r =>
        !shouldRemoveSpec env options (env.now - options.OlderThanDays * 86400) r)
        fi.pathRecords)[j]? with _ | r
    · rw [hg] at hp
      cases hp
    · rw [hg] at hp
      injection hp with hp
      exact ⟨r, rfl, hp⟩
  · exact hinv

theorem LoadFromFile_pathIndexInv (config : FilesystemConfig) (bs : List Nat)
    (fi' : FilesystemIndexer) (h : LoadFromFile config bs = some fi') :
    pathIndexInv fi' := by
  rw [LoadFromFile] at h
  repeat' split at h
  all_goals try cases h
  all_goals dsimp only at h
  repeat' split at h
  all_goals try cases h
  all_goals exact fun q i hq => loadPathIndex_lookup _ q i hq

/-- Claim C4 (counterexample): the Path Index invariant does *not* hold after
adding a path of arbitrary length.  Adding a 512-byte path to a fresh index
stores a record whose path field was truncated to 511 bytes, so the index
entry for the full path points at a record decoding to a different path. -/
theorem claim_C4_counterexample :
    ¬ pathIndexInv (AddPath (fun _ _ => 0) ⟨fun _ => none, fun _ => true, id, 0⟩
        (NewFilesystemIndexer ⟨[], 10, 8, 1⟩) (List.replicate 512 97) 0).1 := by
  intro hinv
  have h0 : (AddPath (fun _ _ => 0) ⟨fun _ => none, fun _ => true, id, 0⟩
      (NewFilesystemIndexer ⟨[], 10, 8, 1⟩) (List.replicate 512 97) 0).1.pathIndex
        (List.replicate 512 97) = some 0 := by decide
  obtain ⟨r, hr, hdec⟩ := hinv _ _ h0
  have hmap : (AddPath (fun _ _ => 0) ⟨fun _ => none, fun _ => true, id, 0⟩
      (NewFilesystemIndexer ⟨[], 10, 8, 1⟩) (List.replicate 512 97) 0).1.pathRecords.map
        (fun r => bytesToPath r.Path) = [List.replicate 511 97] := by decide
  have h1 := congrArg (fun l => l[0]?) hmap
  dsimp only at h1
  rw [List.getElem?_map, hr] at h1
  simp only [Option.map_some, List.getElem?_cons_zero] at h1
  injection h1 with h1
  simp only [hdec] at h1
  have h2 := congrArg List.length h1
  simp only [List.length_replicate] at h2
  omega

/-- Claim C4 (amended): for every path key present in the auxiliary
path-to-index map, the position it yields holds a record whose 512-byte path
field decodes back to that same path — as an invariant established by a fresh
index and by `LoadFromFile`, and preserved by `CleanupIndex` and by `AddPath`
for non-empty NUL-free paths of at most 511 bytes (not for paths of arbitrary
length: a 512-byte path is truncated and breaks the invariant). -/
theorem claim_C4 (bhash : Nat → GoStr → Nat) (env : FsEnv)
    (fi : FilesystemIndexer) (hinv : pathIndexInv fi) :
    (∀ p t, p ≠ [] → p.length ≤ 511 → (∀ b ∈ p, b ≠ 0) →
        pathIndexInv (AddPath bhash env fi p t).1) ∧
    (∀ options, pathIndexInv (CleanupIndex bhash env fi options).1) ∧
    (∀ config bs fi', LoadFromFile config bs = some fi' → pathIndexInv fi') ∧
    (∀ config, pathIndexInv (NewFilesystemIndexer config)) :=
  ⟨fun p t h1 h2 h3 => AddPath_pathIndexInv bhash env fi p t hinv h1 h2 h3,
   fun options => CleanupIndex_pathIndexInv bhash env fi options hinv,
   fun config bs fi' h => LoadFromFile_pathIndexInv config bs fi' h,
   fun _ _ _ h => Option.noConfusion h⟩

/-- Claim C4 (witness): the amended claim applied to a fresh index, whose
invariant holds vacuously, and the one-byte path `"a"`. -/
theorem claim_C4_witness :
    pathIndexInv (AddPath (fun _ _ => 0) ⟨fun _ => none, fun _ => true, id, 0⟩
        (NewFilesystemIndexer ⟨[], 10, 8, 1⟩) [97] 0).1 :=
  (claim_C4 (fun _ _ => 0) ⟨fun _ => none, fun _ => true, id, 0⟩
      (NewFilesystemIndexer ⟨[], 10, 8, 1⟩) (fun _ _ h => Option.noConfusion h)).1
    [97] 0 (by decide) (by decide) (by decide)

theorem membership_foldl_mono (bhash : Nat → GoStr → Nat) (env : FsEnv)
    (adds : List (GoStr × Int)) :
    ∀ (fi : FilesystemIndexer) (p : GoStr),
      fi.bloomFilter.TestString bhash p = true →
      (adds.foldl (fun st a => (AddPath bhash env st a.1 a.2).1)
        fi).bloomFilter.TestString bhash p = true := by
  induction adds with
  | nil => intro fi p h; exact h
  | cons a rest ih =>
      intro fi p h
      rw [List.foldl_cons]
      apply ih
      have hbl := (AddPath_state bhash env fi a.1 a.2).1
      rw [hbl]
      exact TestString_AddString_mono bhash fi.bloomFilter p a.1 h

/-- Claim C5: after `AddPath(p, t)` for a path not already present and not
exceeding the cap, `TestMembership(p)` is true and the frequency estimate is
at least 1; and membership never turns false over any subsequent sequence of
adds (no false negatives).  The bloom filter and sketch are assumed
well-formed: positive bit count, bit-array length `m`, 4x2048 sketch cells
each in `[0, 2^31 - 1)`. -/
theorem claim_C5 (bhash : Nat → GoStr → Nat) (env : FsEnv) (fi : FilesystemIndexer)
    (p : GoStr) (t : Int)
    (hm : 0 < fi.bloomFilter.m) (hb : fi.bloomFilter.bits.length = fi.bloomFilter.m)
    (hlen : fi.countMinSketch.table.length = 4 * 2048)
    (hbd : ∀ v ∈ fi.countMinSketch.table, 0 ≤ v ∧ v < 2 ^ 31 - 1)
    (hnew : fi.pathIndex p = none)
    (hcap : fi.pathRecords.length < fi.config.MaxIndexedFiles) :
    TestMembership bhash (AddPath bhash env fi p t).1 p = true ∧
    1 ≤ GetFrequency (AddPath bhash env fi p t).1 p ∧
    ∀ adds : List (GoStr × Int),
      TestMembership bhash
        (adds.foldl (fun st a => (AddPath bhash env st a.1 a.2).1)
          (AddPath bhash env fi p t).1) p = true := by
  obtain ⟨hbl, hcms, -⟩ := AddPath_state bhash env fi p t
  have h1 : TestMembership bhash (AddPath bhash env fi p t).1 p = true := by
    rw [TestMembership, hbl]
    exact TestString_AddString_self bhash fi.bloomFilter p hm hb
  refine ⟨h1, ?_, ?_⟩
  · rw [GetFrequency, hcms]
    exact Estimate_Add_self fi.countMinSketch p hlen hbd
  · intro adds
    exact membership_foldl_mono bhash env adds _ p h1

/-- Claim C5 (witness): the claim applied to a fresh index and the path
`"a"`. -/
theorem claim_C5_witness :
    TestMembership (fun _ _ => 0)
      (AddPath (fun _ _ => 0) ⟨fun _ => none, fun _ => true, id, 0⟩
        (NewFilesystemIndexer ⟨[], 10, 8, 1⟩) [97] 0).1 [97] = true ∧
    1 ≤ GetFrequency
      (AddPath (fun _ _ => 0) ⟨fun _ => none, fun _ => true, id, 0⟩
        (NewFilesystemIndexer ⟨[], 10, 8, 1⟩) [97] 0).1 [97] ∧
    ∀ adds : List (GoStr × Int),
      TestMembership (fun _ _ => 0)
        (adds.foldl (fun st a =>
            (AddPath (fun _ _ => 0) ⟨fun _ => none, fun _ => true, id, 0⟩ st a.1 a.2).1)
          (AddPath (fun _ _ => 0) ⟨fun _ => none, fun _ => true, id, 0⟩
            (NewFilesystemIndexer ⟨[], 10, 8, 1⟩) [97] 0).1) [97] = true :=
  claim_C5 (fun _ _ => 0) ⟨fun _ => none, fun _ => true, id, 0⟩
    (NewFilesystemIndexer ⟨[], 10, 8, 1⟩) [97] 0 (by decide) (by decide)
    (show (List.replicate (4 * 2048) (0 : Int)).length = 4 * 2048 from
      List.length_replicate _ _)
    (fun v hv => by
      have hv0 : v = 0 :=
        List.eq_of_mem_replicate (show v ∈ List.replicate (4 * 2048) (0 : Int) from hv)
      rw [hv0]
      exact ⟨le_refl 0, by norm_num⟩)
    rfl (by decide)

/-- Claim C9: the `wasKnown` value returned by `AddPath(path, timestamp)` is
the bloom filter's membership answer taken before the insertion, not actual
record presence: for every state it equals `TestString` on the prior filter,
and concretely (one hash, all-zero hash function, 8-bit filter) adding `"b"`
and then the never-added `"a"` returns `wasKnown = true` while a fresh record
is nevertheless appended for `"a"`. -/
theorem claim_C9 (bhash : Nat → GoStr → Nat) (env : FsEnv) (fi : FilesystemIndexer)
    (p : GoStr) (t : Int) :
    (AddPath bhash env fi p t).2.1 = fi.bloomFilter.TestString bhash p ∧
    ((AddPath (fun _ _ => 0) ⟨fun _ => none, fun _ => true, id, 0⟩
        (AddPath (fun _ _ => 0) ⟨fun _ => none, fun _ => true, id, 0⟩
          (NewFilesystemIndexer ⟨[], 10, 8, 1⟩) [98] 0).1 [97] 0).2.1 = true ∧
     (AddPath (fun _ _ => 0) ⟨fun _ => none, fun _ => true, id, 0⟩
        (NewFilesystemIndexer ⟨[], 10, 8, 1⟩) [98] 0).1.pathRecords.map
          (fun r => bytesToPath r.Path) = [[98]] ∧
     (AddPath (fun _ _ => 0) ⟨fun _ => none, fun _ => true, id, 0⟩
        (AddPath (fun _ _ => 0) ⟨fun _ => none, fun _ => true, id, 0⟩
          (NewFilesystemIndexer ⟨[], 10, 8, 1⟩) [98] 0).1 [97] 0).1.pathRecords.length = 2) :=
  ⟨(AddPath_state bhash env fi p t).2.2, by decide, by decide, by decide⟩

/-! ## Directory indexing theorems -/

theorem indexRootsLoop_single (bhash : Nat → GoStr → Nat) (env : FsEnv)
    (skip : GoStr → Bool) (root : FsEntry) (st : FilesystemIndexer × Nat) :
    indexRootsLoop bhash env skip [root] st =
    (walkEntry bhash env skip (addRootPath env st.1 root.path).config.MaxIndexedFiles
      root (addRootPath env st.1 root.path, st.2)).1 := by
  simp only [indexRootsLoop]
  rcases hw : walkEntry bhash env skip (addRootPath env st.1 root.path).config.MaxIndexedFiles
      root (addRootPath env st.1 root.path, st.2) with ⟨st1, err⟩
  cases err with
  | none => simp only [indexRootsLoop]
  | some e => cases e <;> rfl

/-- Claim C10: `IndexDirectoriesWithProgress` never surfaces the
limit-reached condition: for a non-empty root list it returns nil
unconditionally (for an empty list, the distinct "no directories" error);
on a single root it performs the same mutations as
`IndexDirectoryWithProgress`; a limit-reached walk breaks the root loop,
skipping the remaining roots; and concretely, with the cap at 0, the
single-root function returns the "max indexed files limit reached" error
where the multi-root function returns nil on the same input. -/
theorem claim_C10 (bhash : Nat → GoStr → Nat) (env : FsEnv) (skip : GoStr → Bool)
    (fi : FilesystemIndexer) (roots : List FsEntry) (root : FsEntry)
    (rest : List FsEntry) (st : FilesystemIndexer × Nat) (hst : FilesystemIndexer × Nat) :
    (roots ≠ [] → (IndexDirectoriesWithProgress bhash env skip fi roots).2 = none) ∧
    (IndexDirectoriesWithProgress bhash env skip fi []).2 = some IndexErr.noDirectories ∧
    (IndexDirectoriesWithProgress bhash env skip fi [root]).1 =
      (IndexDirectoryWithProgress bhash env skip fi root).1 ∧
    (walkEntry bhash env skip (addRootPath env st.1 root.path).config.MaxIndexedFiles
        root (addRootPath env st.1 root.path, st.2) = (hst, some IndexErr.limitReached) →
      indexRootsLoop bhash env skip (root :: rest) st = hst) ∧
    (IndexDirectoryWithProgress (fun _ _ => 0) ⟨fun _ => none, fun _ => true, id, 0⟩
        (fun _ => false) (NewFilesystemIndexer ⟨[], 0, 8, 1⟩) (FsEntry.file [97])).2 =
      some IndexErr.limitReached ∧
    (IndexDirectoriesWithProgress (fun _ _ => 0) ⟨fun _ => none, fun _ => true, id, 0⟩
        (fun _ => false) (NewFilesystemIndexer ⟨[], 0, 8, 1⟩) [FsEntry.file [97]]).2 =
      none := by
  refine ⟨?_, ?_, ?_, ?_, by decide, by decide⟩
  · intro h
    rw [IndexDirectoriesWithProgress, if_neg (fun hc => h (List.length_eq_zero.mp hc))]
  · rfl
  · rw [IndexDirectoriesWithProgress, if_neg (by simp)]
    rw [IndexDirectoryWithProgress]
    rw [indexRootsLoop_single]
  · intro hw
    simp only [indexRootsLoop]
    rw [hw]

/-- Claim C10 (witness): the never-an-error part applied to a concrete
one-root list. -/
theorem claim_C10_witness :
    ([FsEntry.file [97]] : List FsEntry) ≠ [] ∧
    (IndexDirectoriesWithProgress (fun _ _ => 0) ⟨fun _ => none, fun _ => true, id, 0⟩
        (fun _ => false) (NewFilesystemIndexer ⟨[], 0, 8, 1⟩) [FsEntry.file [97]]).2 =
      none :=
  ⟨by simp, (claim_C10 (fun _ _ => 0) ⟨fun _ => none, fun _ => true, id, 0⟩
      (fun _ => false) (NewFilesystemIndexer ⟨[], 0, 8, 1⟩) [FsEntry.file [97]]
      (FsEntry.file [97]) [] (NewFilesystemIndexer ⟨[], 0, 8, 1⟩, 0)
      (NewFilesystemIndexer ⟨[], 0, 8, 1⟩, 0)).1 (by simp)⟩

/-! ## Help dispatcher theorems -/

theorem tryStrategies_first (cmdParts : List GoStr) (s : HelpStrategy)
    (post : List HelpStrategy)
    (hs : (s.GetHelp cmdParts).2 = none ∧ (s.GetHelp cmdParts).1 ≠ []) :
    ∀ (pre : List HelpStrategy) (e : Option GoStr),
      (∀ q ∈ pre, ¬((q.GetHelp cmdParts).2 = none ∧ (q.GetHelp cmdParts).1 ≠ [])) →
      tryStrategies cmdParts (pre ++ s :: post) e = Sum.inl (s.GetHelp cmdParts).1 := by
  intro pre
  induction pre with
  | nil =>
      intro e _
      rw [List.nil_append]
      simp only [tryStrategies]
      rw [if_pos hs]
  | cons q pre ih =>
      intro e hpre
      rw [List.cons_append]
      simp only [tryStrategies]
      rw [if_neg (hpre q (List.mem_cons_self _ _))]
      exact ih _ (fun q2 hq2 => hpre q2 (List.mem_cons_of_mem _ hq2))

theorem tryStrategies_fail (cmdParts : List GoStr) (l : List HelpStrategy) :
    ∀ (e : Option GoStr),
      (∀ q ∈ l, ¬((q.GetHelp cmdParts).2 = none ∧ (q.GetHelp cmdParts).1 ≠ [])) →
      tryStrategies cmdParts l e =
        Sum.inr (match l.getLast? with
          | none => e
          | some q => (q.GetHelp cmdParts).2) := by
  induction l with
  | nil => intro e _; rfl
  | cons q rest ih =>
      intro e hf
      simp only [tryStrategies]
      rw [if_neg (hf q (List.mem_cons_self _ _))]
      cases rest with
      | nil => rfl
      | cons q2 rest2 =>
          rw [ih _ (fun q3 hq3 => hf q3 (List.mem_cons_of_mem _ hq3))]
          rw [List.getLast?_cons_cons]
          rcases hg : (q2 :: rest2).getLast? with _ | ql
          · simp at hg
          · rfl

/-- Claim C6: for a non-empty command token list, the dispatcher tries the
TLDR strategy unconditionally first and returns its output when its error
is nil and the text non-empty; otherwise it tries exactly the remaining
registered strategies whose supports check passed, in registration order
(the `supportedOf` filter; priorities are never consulted), returning the
first non-empty nil-error success; with no supported strategy it returns
the dedicated "no help strategy found" error, and when every supported
strategy was attempted without success it wraps the last attempt's
error. -/
theorem claim_C6 (tldr : List GoStr → GoStr × Option GoStr)
    (strategies : List HelpStrategy) (cmdParts : List GoStr) (hne : cmdParts ≠ []) :
    ((tldr cmdParts).2 = none ∧ (tldr cmdParts).1 ≠ [] →
      managerGetHelp tldr strategies cmdParts = Except.ok (tldr cmdParts).1) ∧
    (¬((tldr cmdParts).2 = none ∧ (tldr cmdParts).1 ≠ []) →
      (∀ (pre : List HelpStrategy) (s : HelpStrategy) (post : List HelpStrategy),
        supportedOf strategies (commandBaseCmd cmdParts) = pre ++ s :: post →
        (∀ q ∈ pre, ¬((q.GetHelp cmdParts).2 = none ∧ (q.GetHelp cmdParts).1 ≠ [])) →
        (s.GetHelp cmdParts).2 = none ∧ (s.GetHelp cmdParts).1 ≠ [] →
        managerGetHelp tldr strategies cmdParts = Except.ok (s.GetHelp cmdParts).1) ∧
      (supportedOf strategies (commandBaseCmd cmdParts) = [] →
        managerGetHelp tldr strategies cmdParts =
          Except.error (GetHelpErr.noStrategyFound (commandFullName cmdParts))) ∧
      (∀ qlast : HelpStrategy,
        (supportedOf strategies (commandBaseCmd cmdParts)).getLast? = some qlast →
        (∀ q ∈ supportedOf strategies (commandBaseCmd cmdParts),
          ¬((q.GetHelp cmdParts).2 = none ∧ (q.GetHelp cmdParts).1 ≠ [])) →
        managerGetHelp tldr strategies cmdParts =
          Except.error (GetHelpErr.failedToGetHelp (commandFullName cmdParts)
            ((qlast.GetHelp cmdParts).2)))) := by
  have hlen : ¬ cmdParts.length = 0 := fun hc => hne (List.length_eq_zero.mp hc)
  constructor
  · intro ht
    rw [managerGetHelp, if_neg hlen]
    dsimp only
    rw [if_pos ht]
  · intro ht
    refine ⟨?_, ?_, ?_⟩
    · intro pre s post hdec hpre hs
      rw [managerGetHelp, if_neg hlen]
      dsimp only
      rw [if_neg ht, hdec, tryStrategies_first cmdParts s post hs pre none hpre]
    · intro hsup
      rw [managerGetHelp, if_neg hlen]
      dsimp only
      rw [if_neg ht, hsup]
      rfl
    · intro qlast hql hf
      have hnil : ¬ supportedOf strategies (commandBaseCmd cmdParts) = [] := by
        intro hc
        rw [hc] at hql
        cases hql
      rw [managerGetHelp, if_neg hlen]
      dsimp only
      rw [if_neg ht, tryStrategies_fail cmdParts _ none hf, hql]
      dsimp only
      rw [if_neg (fun hc => hnil (List.length_eq_zero.mp hc.1))]

/-- Claim C6 (witness): the claim applied to the one-token command `"h"`,
an always-empty TLDR behaviour and an empty registration list. -/
theorem claim_C6_witness :
    (((fun _ => (([], none) : GoStr × Option GoStr)) [[104]]).2 = none ∧
        ((fun _ => (([], none) : GoStr × Option GoStr)) [[104]]).1 ≠ [] →
      managerGetHelp (fun _ => ([], none)) [] [[104]] =
        Except.ok ((fun _ => (([], none) : GoStr × Option GoStr)) [[104]]).1) ∧
    (¬(((fun _ => (([], none) : GoStr × Option GoStr)) [[104]]).2 = none ∧
        ((fun _ => (([], none) : GoStr × Option GoStr)) [[104]]).1 ≠ []) →
      (∀ (pre : List HelpStrategy) (s : HelpStrategy) (post : List HelpStrategy),
        supportedOf [] (commandBaseCmd [[104]]) = pre ++ s :: post →
        (∀ q ∈ pre, ¬((q.GetHelp [[104]]).2 = none ∧ (q.GetHelp [[104]]).1 ≠ [])) →
        (s.GetHelp [[104]]).2 = none ∧ (s.GetHelp [[104]]).1 ≠ [] →
        managerGetHelp (fun _ => ([], none)) [] [[104]] =
          Except.ok (s.GetHelp [[104]]).1) ∧
      (supportedOf [] (commandBaseCmd [[104]]) = [] →
        managerGetHelp (fun _ => ([], none)) [] [[104]] =
          Except.error (GetHelpErr.noStrategyFound (commandFullName [[104]]))) ∧
      (∀ qlast : HelpStrategy,
        (supportedOf [] (commandBaseCmd [[104]])).getLast? = some qlast →
        (∀ q ∈ supportedOf [] (commandBaseCmd [[104]]),
          ¬((q.GetHelp [[104]]).2 = none ∧ (q.GetHelp [[104]]).1 ≠ [])) →
        managerGetHelp (fun _ => ([], none)) [] [[104]] =
          Except.error (GetHelpErr.failedToGetHelp (commandFullName [[104]])
            ((qlast.GetHelp [[104]]).2)))) :=
  claim_C6 (fun _ => ([], none)) [] [[104]] (by simp)
